import Mathlib

/-!
Expiring object pool (package objpool)

A shallow embedding of `expiring_obj_pool.go`.

* `time.Time` values are integer instants in nanoseconds; `Add`, `After`, `Equal` and
  `Sub` are integer addition, comparison and subtraction.
* `uint64` values are natural numbers, reduced modulo `2 ^ 64` where the code multiplies;
  the conversion to `time.Duration` (an `int64`) is the two's complement reading.
* `container/list.List` is a Lean list of `interface{}` values: the head is `Front()`,
  the last element is `Back()`.
* A call made while holding `Mutex` is one atomic function on the pool. Every call also
  returns the sequence of synchronisation and list operations it performed, in program
  order.
* A type assertion that fails, or a dereference of a nil pointer, is a panic: the call
  has no result.
-/

namespace objpool

/-! ## Data model -/

/-- Go's `time.Millisecond`: the number of nanoseconds in a millisecond. -/
def Millisecond : Nat := 1000000

/-- The conversion `time.Duration(x)` of a `uint64` to an `int64` count of nanoseconds. -/
def toDuration (x : Nat) : Int :=
  if x % 2 ^ 64 < 2 ^ 63 then ((x % 2 ^ 64 : Nat) : Int) else ((x % 2 ^ 64 : Nat) : Int) - 2 ^ 64

/-- ExpiryElement stores an expiry along with the stored object. `Item` is an
`interface{}`: `none` is the nil interface. -/
structure ExpiryElement (α : Type) where
  Item : Option α
  ExpiryTime : Int
deriving DecidableEq, Repr

/-- The `interface{}` values a `list.Element` can hold, as far as the type assertion
`.(*ExpiryElement)` followed by a field access tells them apart. -/
inductive Value (α : Type) where
  /-- A non-nil `*ExpiryElement`. -/
  | ptr (e : ExpiryElement α)
  /-- A nil `*ExpiryElement`: the assertion succeeds, the field access panics. -/
  | nilPtr
  /-- A nil interface or a value of another dynamic type: the assertion panics. -/
  | other
deriving DecidableEq, Repr

/-- The expression `v.(*ExpiryElement)` followed by a field access: `none` is a panic. -/
def Value.assert {α : Type} : Value α → Option (ExpiryElement α)
  | .ptr e => some e
  | .nilPtr => none
  | .other => none

/-- Modelled from the spec: the type `CountingSemaphore` of the imported package
`semaphore`, whose source is not among the files. It is a counting wake-up mechanism;
its state is its internal count. -/
structure CountingSemaphore where
  count : Nat
deriving DecidableEq, Repr

/-- Modelled from the spec: `semaphore.New()`. Nothing has been signalled yet, so a first
`Wait` blocks until a signal is available. -/
def CountingSemaphore.New : CountingSemaphore := { count := 0 }

/-- Modelled from the spec: `Signal` increments the internal count (and wakes one blocked
waiter, which then finds the count positive). -/
def CountingSemaphore.Signal (sem : CountingSemaphore) : CountingSemaphore :=
  { count := sem.count + 1 }

/-- Modelled from the spec: `Wait` blocks the calling task until the count is positive,
then decrements it. `none` while the caller stays blocked. -/
def CountingSemaphore.Wait (sem : CountingSemaphore) : Option CountingSemaphore :=
  if 0 < sem.count then some { count := sem.count - 1 } else none

/-- ExpiringObjectPool: the list of stored values (front first), the number of
milliseconds an object is valid for, and the semaphore. -/
structure ExpiringObjectPool (α : Type) where
  LinkedList : List (Value α)
  ExpiryPeriod : Nat
  Sem : CountingSemaphore
deriving DecidableEq, Repr

/-- The synchronisation, clock and list operations a call performs. -/
inductive Event where
  | mutexLock
  | mutexUnlock
  | semSignal
  | semWait
  | sleep (d : Int)
  | timeNow
  | pushFront
  | front
  | back
  | remove
deriving DecidableEq, Repr

/-- What a call leaves behind: its result (`none` when it panicked), the pool, and the
operations it performed in program order. -/
structure Outcome (α β : Type) where
  result : Option β
  pool : ExpiringObjectPool α
  trace : List Event

/-! ## Add and Retrieve -/

/-- The deadline `time.Now().Add(time.Duration(this.ExpiryPeriod * uint64(time.Millisecond)))`
computed by `Add` when the clock reads `now`. -/
def expiryOf (ExpiryPeriod : Nat) (now : Int) : Int :=
  now + toDuration ((ExpiryPeriod * Millisecond) % 2 ^ 64)

/-- Add adds an object to the pool: under the mutex it pushes a new element with its
deadline to the front of the list and signals the semaphore; the deferred unlock runs
last. -/
def Add {α : Type} (this : ExpiringObjectPool α) (now : Int) (obj : Option α) :
    Outcome α Unit :=
  let expiryTime := expiryOf this.ExpiryPeriod now
  let ll := Value.ptr { Item := obj, ExpiryTime := expiryTime } :: this.LinkedList
  { result := some ()
    pool := { this with LinkedList := ll, Sem := this.Sem.Signal }
    trace := [.mutexLock, .timeNow, .pushFront, .semSignal, .mutexUnlock] }

/-- Retrieve gets an object from the pool if one is available and removes it from the
pool. The front element is removed before its value is asserted to be a
`*ExpiryElement`. -/
def Retrieve {α : Type} (this : ExpiringObjectPool α) : Outcome α (Option α × Bool) :=
  match this.LinkedList with
  | elem :: rest =>
    { result := (Value.assert elem).map (fun e => (e.Item, true))
      pool := { this with LinkedList := rest }
      trace := [.mutexLock, .front, .remove, .mutexUnlock] }
  | [] =>
    { result := some (none, false)
      pool := this
      trace := [.mutexLock, .front, .mutexUnlock] }

/-- A number of `Add` calls in sequence, each with the clock value it read. -/
def addAll {α : Type} (this : ExpiringObjectPool α) : List (Option α × Int) → ExpiringObjectPool α
  | [] => this
  | (obj, now) :: rest => addAll (Add this now obj).pool rest

/-- The results of `n` successive `Retrieve` calls, and the pool they leave; `none` if
one of them panicked. -/
def retrieveN {α : Type} : Nat → ExpiringObjectPool α →
    Option (List (Option α × Bool) × ExpiringObjectPool α)
  | 0, this => some ([], this)
  | n + 1, this =>
    match (Retrieve this).result with
    | none => none
    | some r =>
      match retrieveN n (Retrieve this).pool with
      | none => none
      | some (rs, p) => some (r :: rs, p)

/-! ## The reclaimer goroutine and construction -/

/-- The call `this.Sem.Wait()` at the top of the reclaimer loop: `none` while the
goroutine stays blocked. -/
def semWait {α : Type} (this : ExpiringObjectPool α) : Option (ExpiringObjectPool α) :=
  match this.Sem.Wait with
  | none => none
  | some sem => some { this with Sem := sem }

/-- What the unlocked look at `this.LinkedList.Back()` finds. -/
inductive Peek where
  /-- `Back()` is nil: the loop goes back to `Sem.Wait()`. -/
  | empty
  /-- The back value is an element with this `ExpiryTime`: the goroutine sleeps until then. -/
  | due (expiryTime : Int)
  /-- The type assertion or the field access panicked. -/
  | panic
deriving DecidableEq, Repr

/-- The first look of one reclaimer iteration at the back of the list. The code takes it
without holding the mutex; here it is one atomic read of the list. -/
def peekBack {α : Type} (this : ExpiringObjectPool α) : Peek :=
  match this.LinkedList.getLast? with
  | none => .empty
  | some v =>
    match Value.assert v with
    | none => .panic
    | some e => .due e.ExpiryTime

/-- The locked re-check of one reclaimer iteration when the clock reads `now`: the back
element is removed when `timeNow.After(expiryTime) || timeNow.Equal(expiryTime)`. -/
def reclaim {α : Type} (this : ExpiringObjectPool α) (now : Int) : Outcome α Unit :=
  match this.LinkedList.getLast? with
  | none =>
    { result := some (), pool := this, trace := [.mutexLock, .back, .mutexUnlock] }
  | some v =>
    match Value.assert v with
    | none => { result := none, pool := this, trace := [.mutexLock, .back] }
    | some e =>
      if e.ExpiryTime < now ∨ now = e.ExpiryTime then
        { result := some ()
          pool := { this with LinkedList := this.LinkedList.dropLast }
          trace := [.mutexLock, .back, .timeNow, .remove, .mutexUnlock] }
      else
        { result := some (), pool := this
          trace := [.mutexLock, .back, .timeNow, .mutexUnlock] }

/-- NewTimedExiryPool creates a pool with an empty list, the given period and a fresh
semaphore. The pointer it returns is the address of a composite literal, hence never
nil; the reclaimer goroutine it starts is part of `System` below. -/
def NewTimedExiryPool {α : Type} (expiryTimeInMilli : Nat) : ExpiringObjectPool α :=
  { LinkedList := [], ExpiryPeriod := expiryTimeInMilli, Sem := CountingSemaphore.New }

/-! ## The pool together with its reclaimer goroutine and the clock -/

/-- Where the goroutine running `removeExpiredItems` stands. -/
inductive Reclaimer where
  /-- Blocked in, or about to call, `this.Sem.Wait()`. -/
  | atWait
  /-- `Wait` returned; about to look at `Back()` without the lock. -/
  | atPeek
  /-- In `time.Sleep`, which returns no earlier than the peeked `expiryTime`. -/
  | asleep (expiryTime : Int)
  /-- `Sleep` returned; about to lock the mutex and re-check the back element. -/
  | atLock (expiryTime : Int)
deriving DecidableEq, Repr

/-- The pool, the clock and the reclaimer goroutine. `added` and `returned` are history
variables: the elements created by `Add` and the elements whose item `Retrieve` handed
out, most recent first. -/
structure System (α : Type) where
  pool : ExpiringObjectPool α
  now : Int
  reclaimer : Reclaimer
  added : List (ExpiryElement α)
  returned : List (ExpiryElement α)
deriving DecidableEq, Repr

/-- What can happen next: the clock moves to `t`, a caller runs `Add` or `Retrieve`, or
the reclaimer goroutine takes its next step. -/
inductive Action (α : Type) where
  | tick (t : Int)
  | add (obj : Option α)
  | retrieve
  | reclaimer
deriving DecidableEq, Repr

/-- The element at the front of the list, if the front value is one. -/
def frontElement {α : Type} (this : ExpiringObjectPool α) : Option (ExpiryElement α) :=
  this.LinkedList.head?.bind Value.assert

/-- One step of the system. `none` when the step cannot be taken: the clock does not run
backwards, a blocked goroutine does not move, and a panic ends the program. -/
def step {α : Type} : Action α → System α → Option (System α)
  | .tick t, s => if s.now ≤ t then some { s with now := t } else none
  | .add obj, s =>
    some { s with
      pool := (Add s.pool s.now obj).pool
      added := { Item := obj, ExpiryTime := expiryOf s.pool.ExpiryPeriod s.now } :: s.added }
  | .retrieve, s =>
    match (Retrieve s.pool).result with
    | none => none
    | some _ =>
      some { s with
        pool := (Retrieve s.pool).pool
        returned := (frontElement s.pool).toList ++ s.returned }
  | .reclaimer, s =>
    match s.reclaimer with
    | .atWait => (semWait s.pool).map fun p => { s with pool := p, reclaimer := .atPeek }
    | .atPeek =>
      match peekBack s.pool with
      | .empty => some { s with reclaimer := .atWait }
      | .due expiryTime => some { s with reclaimer := .asleep expiryTime }
      | .panic => none
    | .asleep expiryTime =>
      if expiryTime ≤ s.now then some { s with reclaimer := .atLock expiryTime } else none
    | .atLock _ =>
      match (reclaim s.pool s.now).result with
      | none => none
      | some _ => some { s with pool := (reclaim s.pool s.now).pool, reclaimer := .atWait }

/-- The system right after `NewTimedExiryPool(expiryTimeInMilli)` returned at time `t0`. -/
def start {α : Type} (expiryTimeInMilli : Nat) (t0 : Int) : System α :=
  { pool := NewTimedExiryPool expiryTimeInMilli, now := t0, reclaimer := .atWait
    added := [], returned := [] }

/-- A sequence of steps, `none` as soon as one of them cannot be taken. -/
def run {α : Type} : List (Action α) → System α → Option (System α)
  | [], s => some s
  | a :: as, s => (step a s).bind (run as)

/-- The states the system can be in: those a sequence of steps leads to from a pool
created by `NewTimedExiryPool`. -/
inductive Reachable {α : Type} : System α → Prop
  | init (expiryTimeInMilli : Nat) (t0 : Int) : Reachable (start expiryTimeInMilli t0)
  | next {s s' : System α} (a : Action α) : Reachable s → step a s = some s' → Reachable s'

/-- The elements held in the list, front first; values that are not elements are
skipped. -/
def elements {α : Type} (this : ExpiringObjectPool α) : List (ExpiryElement α) :=
  this.LinkedList.filterMap Value.assert

/-- The items held in the list, front first. -/
def items {α : Type} (this : ExpiringObjectPool α) : List (Option α) :=
  (elements this).map ExpiryElement.Item

/-- The steps that are not calls to `Add` or `Retrieve`: the clock moving and the
reclaimer goroutine running. -/
def Action.background {α : Type} : Action α → Bool
  | .tick _ => true
  | .reclaimer => true
  | .add _ => false
  | .retrieve => false

/-- The reclaimer goroutine running alone for at most `n` steps while the clock stands
still; it stops as soon as it cannot take a step. -/
def reclaimerRun {α : Type} : Nat → System α → System α
  | 0, s => s
  | n + 1, s =>
    match step Action.reclaimer s with
    | none => s
    | some s' => reclaimerRun n s'

/-- A bound on the number of steps the reclaimer can take on its own while the clock
stands still: every iteration takes at most four steps and consumes one signal. -/
def reclaimerBound {α : Type} (s : System α) : Nat :=
  4 * s.pool.Sem.count +
    match s.reclaimer with
    | .atWait => 0
    | .atPeek => 3
    | .asleep _ => 2
    | .atLock _ => 1

/-- What holds of the peeked deadline `u` while the reclaimer sleeps or is about to
re-check: no deadline in the list is earlier, `u` is not later than the deadline of an
`Add` issued now, and either every element in the list has a pending signal, or all but
the back element have one and the back element is due at `u`. -/
def Awaited {α : Type} (es : List (ExpiryElement α)) (period sem : Nat) (now u : Int) : Prop :=
  u ≤ expiryOf period now ∧ (∀ e ∈ es, u ≤ e.ExpiryTime) ∧
    (es.length ≤ sem ∨ (es.length ≤ sem + 1 ∧ ∃ e, es.getLast? = some e ∧ e.ExpiryTime = u))

/-- The invariant of the system, on the elements `es` of the list (front first): no
deadline is later than that of an `Add` issued now, deadlines do not increase from the
front to the back, and the pending signals together with the iteration the reclaimer is
in account for every element. -/
def Good {α : Type} (es : List (ExpiryElement α)) (period sem : Nat) (now : Int) :
    Reclaimer → Prop
  | .atWait =>
    (∀ e ∈ es, e.ExpiryTime ≤ expiryOf period now) ∧
      es.Pairwise (fun a b => b.ExpiryTime ≤ a.ExpiryTime) ∧ es.length ≤ sem
  | .atPeek =>
    (∀ e ∈ es, e.ExpiryTime ≤ expiryOf period now) ∧
      es.Pairwise (fun a b => b.ExpiryTime ≤ a.ExpiryTime) ∧ es.length ≤ sem + 1
  | .asleep u =>
    (∀ e ∈ es, e.ExpiryTime ≤ expiryOf period now) ∧
      es.Pairwise (fun a b => b.ExpiryTime ≤ a.ExpiryTime) ∧ Awaited es period sem now u
  | .atLock u =>
    (∀ e ∈ es, e.ExpiryTime ≤ expiryOf period now) ∧
      es.Pairwise (fun a b => b.ExpiryTime ≤ a.ExpiryTime) ∧ Awaited es period sem now u ∧
      u ≤ now

/-- The invariant of the system: the list holds non-nil elements only, and they satisfy
`Good`. -/
def Inv {α : Type} (s : System α) : Prop :=
  ∃ es : List (ExpiryElement α), s.pool.LinkedList = es.map Value.ptr ∧
    Good es s.pool.ExpiryPeriod s.pool.Sem.count s.now s.reclaimer

/-- Whether the reclaimer is in the middle of an iteration of its loop: 0 while it is at
`Sem.Wait()`, 1 from the moment `Wait` returned until the iteration ends. -/
def inIteration : Reclaimer → Nat
  | .atWait => 0
  | .atPeek => 1
  | .asleep _ => 1
  | .atLock _ => 1

/-- The operations the next step performs, in program order. The reclaimer performs
`Sem.Wait()` when it leaves `atWait`; `Back()` and, if there is a back element,
`time.Now()` and `time.Sleep` when it leaves `atPeek`; nothing more when `Sleep` returns;
and the operations of the locked re-check when it leaves `atLock`. -/
def stepTrace {α : Type} : Action α → System α → List Event
  | .tick _, _ => []
  | .add obj, s => (Add s.pool s.now obj).trace
  | .retrieve, s => (Retrieve s.pool).trace
  | .reclaimer, s =>
    match s.reclaimer with
    | .atWait => [.semWait]
    | .atPeek =>
      match peekBack s.pool with
      | .empty => [.back]
      | .due expiryTime => [.back, .timeNow, .sleep (expiryTime - s.now)]
      | .panic => [.back]
    | .asleep _ => []
    | .atLock _ => (reclaim s.pool s.now).trace

/-- In the sequence of operations `tr`, the first `a` comes before the first `b`, and
`b` does occur. -/
def occursBefore (a b : Event) (tr : List Event) : Prop :=
  tr.indexOf a < tr.indexOf b ∧ tr.indexOf b < tr.length

/-- The deadlines in the list do not decrease from the back to the front: of any two
elements, the one nearer the back has the earlier or the same `ExpiryTime`. -/
def deadlineOrdered {α : Type} (this : ExpiringObjectPool α) : Prop :=
  (elements this).Pairwise (fun a b => b.ExpiryTime ≤ a.ExpiryTime)

/-! ## Add and Retrieve: order of results -/

/-- The pool after a sequence of `Add` calls: the new elements in front, most recent
first, the period unchanged and one signal per call. -/
theorem addAll_eq {α : Type} (xs : List (Option α × Int)) (s : ExpiringObjectPool α) :
    addAll s xs =
      { LinkedList := (xs.reverse.map fun x =>
            Value.ptr { Item := x.1, ExpiryTime := expiryOf s.ExpiryPeriod x.2 }) ++ s.LinkedList
        ExpiryPeriod := s.ExpiryPeriod
        Sem := { count := s.Sem.count + xs.length } } := by
  induction xs generalizing s with
  | nil => simp [addAll]
  | cons x xs ih =>
    obtain ⟨obj, now⟩ := x
    rw [addAll, ih]
    simp [Add, CountingSemaphore.Signal, Nat.add_assoc, Nat.add_comm 1]

/-- Retrieving as many times as there are elements in front of the list hands back their
items in list order and leaves the rest of the list. -/
theorem retrieveN_elements {α : Type} (es : List (ExpiryElement α)) (p : ExpiringObjectPool α)
    (l : List (Value α)) (h : p.LinkedList = es.map Value.ptr ++ l) :
    retrieveN es.length p =
      some (es.map (fun e => (e.Item, true)), { p with LinkedList := l }) := by
  induction es generalizing p with
  | nil =>
    simp only [List.map_nil, List.nil_append] at h
    simp [retrieveN, ← h]
  | cons e es ih =>
    have h1 : (Retrieve p).result = some (e.Item, true) := by
      simp [Retrieve, h, Value.assert]
    have h2 : (Retrieve p).pool = { p with LinkedList := es.map Value.ptr ++ l } := by
      simp [Retrieve, h]
    have h3 := ih { p with LinkedList := es.map Value.ptr ++ l } rfl
    simp only [List.length_cons, retrieveN, h1, h2, h3, List.map_cons]

/-- Retrieve on a pool with an empty list finds nothing and leaves the pool as it is. -/
theorem Retrieve_nil {α : Type} (p : ExpiringObjectPool α) (h : p.LinkedList = []) :
    (Retrieve p).result = some (none, false) ∧ (Retrieve p).pool = p := by
  simp [Retrieve, h]

/-- Any number of Retrieve calls on a pool with an empty list find nothing. -/
theorem retrieveN_nil {α : Type} (n : Nat) (p : ExpiringObjectPool α) (h : p.LinkedList = []) :
    retrieveN n p = some (List.replicate n (none, false), p) := by
  induction n with
  | zero => simp [retrieveN]
  | succ n ih =>
    simp [retrieveN, (Retrieve_nil p h).1, (Retrieve_nil p h).2, ih, List.replicate_succ]

/-- Successive Retrieve calls compose. -/
theorem retrieveN_add {α : Type} (m n : Nat) (p : ExpiringObjectPool α) :
    retrieveN (m + n) p =
      (retrieveN m p).bind fun r => (retrieveN n r.2).map fun r' => (r.1 ++ r'.1, r'.2) := by
  induction m generalizing p with
  | zero =>
    simp only [Nat.zero_add, retrieveN, Option.some_bind, List.nil_append]
    cases retrieveN n p <;> simp
  | succ m ih =>
    rw [Nat.add_right_comm]
    simp only [retrieveN]
    cases h1 : (Retrieve p).result with
    | none => simp
    | some r =>
      simp only [ih]
      cases h2 : retrieveN m (Retrieve p).pool with
      | none => simp
      | some q =>
        simp only [Option.some_bind]
        cases h3 : retrieveN n q.2 with
        | none => simp
        | some q' => simp

/-! ## Steps of the system -/

/-- The call `this.Sem.Wait()` of the reclaimer takes one signal when there is one. -/
theorem semWait_eq {α : Type} (this : ExpiringObjectPool α) :
    semWait this =
      if 0 < this.Sem.count then some { this with Sem := { count := this.Sem.count - 1 } }
      else none := by
  unfold semWait CountingSemaphore.Wait
  split <;> rename_i h <;> split at h <;> simp_all

/-- The clock never runs backwards along a step. -/
theorem step_now_le {α : Type} {a : Action α} {s s' : System α} (h : step a s = some s') :
    s.now ≤ s'.now := by
  cases a with
  | tick t =>
    simp only [step] at h
    split at h
    · cases h; assumption
    · cases h
  | add obj => simp only [step] at h; cases h; exact le_refl _
  | retrieve =>
    simp only [step] at h
    split at h
    · cases h
    · cases h; exact le_refl _
  | reclaimer =>
    simp only [step] at h
    split at h
    · simp only [semWait_eq] at h
      split at h
      · cases h; exact le_refl _
      · cases h
    · split at h
      · cases h; exact le_refl _
      · cases h; exact le_refl _
      · cases h
    · split at h
      · cases h; exact le_refl _
      · cases h
    · split at h
      · cases h
      · cases h; exact le_refl _

/-- The clock never runs backwards along a sequence of steps. -/
theorem run_now_le {α : Type} (as : List (Action α)) {s s' : System α}
    (h : run as s = some s') : s.now ≤ s'.now := by
  induction as generalizing s with
  | nil => simp only [run] at h; cases h; exact le_refl _
  | cons a as ih =>
    simp only [run] at h
    cases h1 : step a s with
    | none => simp [h1] at h
    | some s1 =>
      rw [h1] at h
      exact le_trans (step_now_le h1) (ih h)

/-- A state reached by a sequence of steps from a reachable state is reachable. -/
theorem Reachable.run {α : Type} (as : List (Action α)) {s s' : System α}
    (hs : Reachable s) (h : objpool.run as s = some s') : Reachable s' := by
  induction as generalizing s with
  | nil => simp only [objpool.run] at h; cases h; exact hs
  | cons a as ih =>
    simp only [objpool.run] at h
    cases h1 : step a s with
    | none => simp [h1] at h
    | some s1 =>
      rw [h1] at h
      exact ih (Reachable.next a hs h1) h

/-- The elements of a list that ends in an element. -/
theorem elements_append_ptr {α : Type} (p : ExpiringObjectPool α) (l : List (Value α))
    (e : ExpiryElement α) (h : p.LinkedList = l ++ [Value.ptr e]) :
    elements p = l.filterMap Value.assert ++ [e] := by
  simp [elements, h, List.filterMap_append, Value.assert]

/-- The locked re-check keeps every element whose deadline is strictly after `now`. -/
theorem reclaim_count {α : Type} [DecidableEq α] (p : ExpiringObjectPool α) (now : Int)
    (e : ExpiryElement α) (he : now < e.ExpiryTime) :
    (elements (reclaim p now).pool).count e = (elements p).count e := by
  unfold reclaim
  split
  · rfl
  · rename_i v hv
    split
    · rfl
    · rename_i e0 he0
      split
      · rename_i hexp
        have hv2 : v = Value.ptr e0 := by
          cases v <;> simp [Value.assert] at he0
          rw [he0]
        have hl : p.LinkedList = p.LinkedList.dropLast ++ [Value.ptr e0] := by
          have := List.dropLast_append_getLast? v (by simpa using hv)
          rw [hv2] at this
          exact this.symm
        rw [elements_append_ptr p _ e0 hl]
        have hne : e0 ≠ e := by
          intro h
          rw [h] at hexp
          omega
        simp [elements, List.count_append, List.count_cons, hne]
      · rfl

/-- Every element that was added and whose deadline is still ahead is either in the
list or was handed out by Retrieve: one step keeps this true. -/
theorem step_kept {α : Type} [DecidableEq α] {a : Action α} {s s' : System α}
    (h : step a s = some s')
    (ih : ∀ e : ExpiryElement α, s.now < e.ExpiryTime →
      s.added.count e = (elements s.pool).count e + s.returned.count e)
    (e : ExpiryElement α) (he : s'.now < e.ExpiryTime) :
    s'.added.count e = (elements s'.pool).count e + s'.returned.count e := by
  have hnow := step_now_le h
  have ih' := ih e (lt_of_le_of_lt hnow he)
  cases a with
  | tick t =>
    simp only [step] at h
    split at h
    · cases h; exact ih'
    · cases h
  | add obj =>
    simp only [step] at h
    cases h
    simp only [Add, elements, List.filterMap_cons, Value.assert, List.count_cons]
    simp only [elements] at ih'
    omega
  | retrieve =>
    simp only [step] at h
    split at h
    · cases h
    · rename_i r hr
      cases h
      obtain ⟨l, hl⟩ : ∃ l, s.pool.LinkedList = l := ⟨_, rfl⟩
      cases l with
      | nil =>
        simp only [Retrieve, hl, frontElement, List.head?_nil, Option.none_bind,
          Option.toList_none, List.nil_append]
        exact ih'
      | cons v rest =>
        obtain ⟨e0, he0⟩ : ∃ e0, Value.assert v = some e0 := by
          cases hv : Value.assert v with
          | none => simp [Retrieve, hl, hv] at hr
          | some e0 => exact ⟨e0, rfl⟩
        simp only [elements, hl, List.filterMap_cons, he0] at ih'
        simp only [Retrieve, hl, frontElement, List.head?_cons, Option.some_bind, he0,
          Option.toList_some, List.singleton_append, elements, List.count_cons]
        simp only [List.count_cons] at ih'
        omega
  | reclaimer =>
    simp only [step] at h
    split at h
    · simp only [semWait_eq] at h
      split at h
      · cases h; exact ih'
      · cases h
    · split at h
      · cases h; exact ih'
      · cases h; exact ih'
      · cases h
    · split at h
      · cases h; exact ih'
      · cases h
    · split at h
      · cases h
      · cases h
        simp only
        rw [reclaim_count s.pool s.now e (lt_of_le_of_lt hnow he)]
        exact ih'

/-- In every reachable state, every element that was added and whose deadline is still
ahead is either in the list or was handed out by Retrieve. -/
theorem reachable_kept {α : Type} [DecidableEq α] {s : System α} (hs : Reachable s)
    (e : ExpiryElement α) (he : s.now < e.ExpiryTime) :
    s.added.count e = (elements s.pool).count e + s.returned.count e := by
  induction hs generalizing e with
  | init p t0 => simp [start, NewTimedExiryPool, elements]
  | next a _ h ih => exact step_kept h ih e he

/-- While only the clock and the reclaimer move and the deadline of the front element is
ahead, that element stays at the front. -/
theorem front_stays {α : Type} (as : List (Action α)) (s s' : System α)
    (e : ExpiryElement α) (rest : List (Value α))
    (hl : s.pool.LinkedList = Value.ptr e :: rest)
    (hb : ∀ a ∈ as, Action.background a = true)
    (h : run as s = some s') (he : s'.now < e.ExpiryTime) :
    ∃ rest', s'.pool.LinkedList = Value.ptr e :: rest' := by
  induction as generalizing s rest with
  | nil => simp only [run] at h; cases h; exact ⟨rest, hl⟩
  | cons a as ih =>
    simp only [run] at h
    cases h1 : step a s with
    | none => simp [h1] at h
    | some s1 =>
      rw [h1] at h
      simp only [Option.some_bind] at h
      have hnow : s.now < e.ExpiryTime :=
        lt_of_le_of_lt (le_trans (step_now_le h1) (run_now_le as h)) he
      have hb' : ∀ a ∈ as, Action.background a = true :=
        fun b hb1 => hb b (List.mem_cons_of_mem _ hb1)
      have ha := hb a (List.mem_cons_self _ _)
      suffices hs1 : ∃ rest1, s1.pool.LinkedList = Value.ptr e :: rest1 by
        obtain ⟨rest1, hr1⟩ := hs1
        exact ih s1 rest1 hr1 hb' h
      cases a with
      | add obj => simp [Action.background] at ha
      | retrieve => simp [Action.background] at ha
      | tick t =>
        simp only [step] at h1
        split at h1
        · cases h1; exact ⟨rest, hl⟩
        · cases h1
      | reclaimer =>
        simp only [step] at h1
        split at h1
        · simp only [semWait_eq] at h1
          split at h1
          · cases h1; exact ⟨rest, hl⟩
          · cases h1
        · split at h1
          · cases h1; exact ⟨rest, hl⟩
          · cases h1; exact ⟨rest, hl⟩
          · cases h1
        · split at h1
          · cases h1; exact ⟨rest, hl⟩
          · cases h1
        · split at h1
          · cases h1
          · cases h1
            simp only
            unfold reclaim
            split
            · exact ⟨rest, hl⟩
            · rename_i v hv
              split
              · exact ⟨rest, hl⟩
              · rename_i e0 he0
                split
                · rename_i hexp
                  cases rest with
                  | nil =>
                    simp only [hl, List.getLast?_singleton, Option.some.injEq] at hv
                    subst hv
                    simp only [Value.assert, Option.some.injEq] at he0
                    subst he0
                    omega
                  | cons w ws =>
                    refine ⟨(w :: ws).dropLast, ?_⟩
                    simp [hl, List.dropLast]
                · exact ⟨rest, hl⟩

/-! ## Deadlines -/

/-- As long as the period in nanoseconds fits an `int64`, the deadline is the clock value
plus the period. -/
theorem expiryOf_of_lt (period : Nat) (now : Int) (h : period * Millisecond < 2 ^ 63) :
    expiryOf period now = now + (period : Int) * 1000000 := by
  have h1 : period * Millisecond % 2 ^ 64 = period * Millisecond :=
    Nat.mod_eq_of_lt (lt_trans h (by norm_num))
  simp only [expiryOf, toDuration, h1, Nat.mod_mod, h, if_true]
  simp [Millisecond]

/-- The values in the list of a reachable state are all non-nil elements: a step keeps
this true. -/
theorem step_ptr {α : Type} {a : Action α} {s s' : System α} (h : step a s = some s')
    (ih : ∀ v ∈ s.pool.LinkedList, ∃ e, v = Value.ptr e) :
    ∀ v ∈ s'.pool.LinkedList, ∃ e, v = Value.ptr e := by
  cases a with
  | tick t =>
    simp only [step] at h
    split at h
    · cases h; exact ih
    · cases h
  | add obj =>
    simp only [step] at h
    cases h
    intro v hv
    simp only [Add, List.mem_cons] at hv
    rcases hv with hv | hv
    · exact ⟨_, hv⟩
    · exact ih v hv
  | retrieve =>
    simp only [step] at h
    split at h
    · cases h
    · cases h
      intro v hv
      apply ih
      unfold Retrieve at hv
      split at hv
      · rename_i hl
        simp only at hv
        rw [hl]
        exact List.mem_cons_of_mem _ hv
      · exact hv
  | reclaimer =>
    simp only [step] at h
    split at h
    · simp only [semWait_eq] at h
      split at h
      · cases h; exact ih
      · cases h
    · split at h
      · cases h; exact ih
      · cases h; exact ih
      · cases h
    · split at h
      · cases h; exact ih
      · cases h
    · split at h
      · cases h
      · cases h
        intro v hv
        apply ih
        simp only at hv
        unfold reclaim at hv
        split at hv
        · exact hv
        · split at hv
          · exact hv
          · split at hv
            · exact List.mem_of_mem_dropLast hv
            · exact hv

/-- The values in the list of a reachable state are all non-nil elements. -/
theorem reachable_ptr {α : Type} {s : System α} (hs : Reachable s) :
    ∀ v ∈ s.pool.LinkedList, ∃ e, v = Value.ptr e := by
  induction hs with
  | init p t0 => simp [start, NewTimedExiryPool]
  | next a _ h ih => exact step_ptr h ih

/-! ## The invariant -/

/-- Looking at the back of a list of elements. -/
theorem peekBack_map {α : Type} (es : List (ExpiryElement α)) (period sem : Nat) :
    peekBack { LinkedList := es.map Value.ptr, ExpiryPeriod := period, Sem := { count := sem } } =
      match es.getLast? with
      | none => Peek.empty
      | some e => Peek.due e.ExpiryTime := by
  rcases List.eq_nil_or_concat es with h | ⟨l, e, h⟩
  · subst h; rfl
  · subst h
    simp [peekBack, Value.assert, List.getLast?_concat]

/-- The locked re-check on a list of elements. -/
theorem reclaim_map {α : Type} (es : List (ExpiryElement α)) (period sem : Nat) (now : Int) :
    (reclaim { LinkedList := es.map Value.ptr, ExpiryPeriod := period, Sem := { count := sem } } now).result
        = some () ∧
      (reclaim { LinkedList := es.map Value.ptr, ExpiryPeriod := period, Sem := { count := sem } } now).pool =
        { LinkedList :=
            (match es.getLast? with
              | none => es
              | some e => if e.ExpiryTime ≤ now then es.dropLast else es).map Value.ptr
          ExpiryPeriod := period, Sem := { count := sem } } := by
  rcases List.eq_nil_or_concat es with h | ⟨l, e, h⟩
  · subst h; simp [reclaim]
  · subst h
    have h1 : (e.ExpiryTime < now ∨ now = e.ExpiryTime) ↔ e.ExpiryTime ≤ now := by
      constructor <;> intro h <;> omega
    simp only [reclaim, List.map_append, List.map_cons, List.map_nil, List.getLast?_concat,
      Value.assert, h1, List.concat_eq_append]
    split <;> simp [List.dropLast_concat]

/-- The deadline of an `Add` does not decrease with the clock. -/
theorem expiryOf_mono (period : Nat) {now t : Int} (h : now ≤ t) :
    expiryOf period now ≤ expiryOf period t := by
  unfold expiryOf
  omega

/-- The invariant survives the clock moving forward. -/
theorem Good_tick {α : Type} {es : List (ExpiryElement α)} {period sem : Nat} {now t : Int}
    {rc : Reclaimer} (h : now ≤ t) (hg : Good es period sem now rc) :
    Good es period sem t rc := by
  have hm := expiryOf_mono period h
  cases rc with
  | atWait => exact ⟨fun e he => le_trans (hg.1 e he) hm, hg.2.1, hg.2.2⟩
  | atPeek => exact ⟨fun e he => le_trans (hg.1 e he) hm, hg.2.1, hg.2.2⟩
  | asleep u =>
    obtain ⟨h1, h2, h3, h4, h5⟩ := hg
    exact ⟨fun e he => le_trans (h1 e he) hm, h2, le_trans h3 hm, h4, h5⟩
  | atLock u =>
    obtain ⟨h1, h2, ⟨h3, h4, h5⟩, h6⟩ := hg
    exact ⟨fun e he => le_trans (h1 e he) hm, h2, ⟨le_trans h3 hm, h4, h5⟩, le_trans h6 h⟩

/-- The deadline bound and the order of deadlines survive an `Add`. -/
theorem sorted_add {α : Type} {es : List (ExpiryElement α)} {period : Nat} {now : Int}
    (obj : Option α) (h1 : ∀ e ∈ es, e.ExpiryTime ≤ expiryOf period now)
    (h2 : es.Pairwise (fun a b => b.ExpiryTime ≤ a.ExpiryTime)) :
    (∀ e ∈ ({ Item := obj, ExpiryTime := expiryOf period now } : ExpiryElement α) :: es,
        e.ExpiryTime ≤ expiryOf period now) ∧
      (({ Item := obj, ExpiryTime := expiryOf period now } : ExpiryElement α) :: es).Pairwise
        (fun a b => b.ExpiryTime ≤ a.ExpiryTime) := by
  constructor
  · intro e he
    rcases List.mem_cons.1 he with he | he
    · rw [he]
    · exact h1 e he
  · exact List.pairwise_cons.2 ⟨h1, h2⟩

/-- The peeked deadline stays awaited across an `Add`. -/
theorem Awaited_add {α : Type} {es : List (ExpiryElement α)} {period sem : Nat} {now u : Int}
    (obj : Option α) (h : Awaited es period sem now u) :
    Awaited (({ Item := obj, ExpiryTime := expiryOf period now } : ExpiryElement α) :: es)
      period (sem + 1) now u := by
  obtain ⟨h3, h4, h5⟩ := h
  refine ⟨h3, ?_, ?_⟩
  · intro e he
    rcases List.mem_cons.1 he with he | he
    · rw [he]; exact h3
    · exact h4 e he
  · rcases h5 with h5 | ⟨h5, e, he, hu⟩
    · left; simp only [List.length_cons]; omega
    · right
      refine ⟨by simp only [List.length_cons]; omega, e, ?_, hu⟩
      cases es with
      | nil => simp at he
      | cons b bs => rw [List.getLast?_cons_cons]; exact he

/-- The invariant survives an `Add`. -/
theorem Good_add {α : Type} {es : List (ExpiryElement α)} {period sem : Nat} {now : Int}
    {rc : Reclaimer} (obj : Option α) (hg : Good es period sem now rc) :
    Good (({ Item := obj, ExpiryTime := expiryOf period now } : ExpiryElement α) :: es)
      period (sem + 1) now rc := by
  cases rc with
  | atWait =>
    obtain ⟨h1, h2, h3⟩ := hg
    exact ⟨(sorted_add obj h1 h2).1, (sorted_add obj h1 h2).2,
      by simp only [List.length_cons]; omega⟩
  | atPeek =>
    obtain ⟨h1, h2, h3⟩ := hg
    exact ⟨(sorted_add obj h1 h2).1, (sorted_add obj h1 h2).2,
      by simp only [List.length_cons]; omega⟩
  | asleep u =>
    obtain ⟨h1, h2, h3⟩ := hg
    exact ⟨(sorted_add obj h1 h2).1, (sorted_add obj h1 h2).2, Awaited_add obj h3⟩
  | atLock u =>
    obtain ⟨h1, h2, h3, h4⟩ := hg
    exact ⟨(sorted_add obj h1 h2).1, (sorted_add obj h1 h2).2, Awaited_add obj h3, h4⟩

/-- The peeked deadline stays awaited when the front element is taken. -/
theorem Awaited_tail {α : Type} {es : List (ExpiryElement α)} {period sem : Nat} {now u : Int}
    (h : Awaited es period sem now u) : Awaited es.tail period sem now u := by
  obtain ⟨h3, h4, h5⟩ := h
  refine ⟨h3, fun e he => h4 e (List.mem_of_mem_tail he), Or.inl ?_⟩
  rw [List.length_tail]
  rcases h5 with h5 | ⟨h5, -⟩ <;> omega

/-- The invariant survives the removal of the front element. -/
theorem Good_tail {α : Type} {es : List (ExpiryElement α)} {period sem : Nat} {now : Int}
    {rc : Reclaimer} (hg : Good es period sem now rc) : Good es.tail period sem now rc := by
  have hlen : es.tail.length ≤ es.length := by rw [List.length_tail]; omega
  cases rc with
  | atWait =>
    obtain ⟨h1, h2, h3⟩ := hg
    exact ⟨fun e he => h1 e (List.mem_of_mem_tail he), h2.tail, le_trans hlen h3⟩
  | atPeek =>
    obtain ⟨h1, h2, h3⟩ := hg
    exact ⟨fun e he => h1 e (List.mem_of_mem_tail he), h2.tail, le_trans hlen h3⟩
  | asleep u =>
    obtain ⟨h1, h2, h3⟩ := hg
    exact ⟨fun e he => h1 e (List.mem_of_mem_tail he), h2.tail, Awaited_tail h3⟩
  | atLock u =>
    obtain ⟨h1, h2, h3, h4⟩ := hg
    exact ⟨fun e he => h1 e (List.mem_of_mem_tail he), h2.tail, Awaited_tail h3, h4⟩

/-- In a list whose deadlines do not increase towards the back, the back element has the
earliest deadline. -/
theorem back_earliest {α : Type} {es : List (ExpiryElement α)} {b : ExpiryElement α}
    (h2 : es.Pairwise (fun a b => b.ExpiryTime ≤ a.ExpiryTime)) (hb : es.getLast? = some b) :
    ∀ e ∈ es, b.ExpiryTime ≤ e.ExpiryTime := by
  rcases List.eq_nil_or_concat es with h | ⟨l, c, h⟩
  · subst h; simp
  · subst h
    rw [List.concat_eq_append] at h2 hb
    rw [List.getLast?_concat, Option.some.injEq] at hb
    subst hb
    intro e he
    simp only [List.concat_eq_append, List.mem_append, List.mem_singleton] at he
    rcases he with he | he
    · exact (List.pairwise_append.1 h2).2.2 e he c (List.mem_singleton_self c)
    · rw [he]

/-- The invariant survives the locked re-check, which ends the iteration. -/
theorem Good_reclaim {α : Type} {es : List (ExpiryElement α)} {period sem : Nat} {now u : Int}
    (hg : Good es period sem now (Reclaimer.atLock u)) :
    Good (match es.getLast? with
        | none => es
        | some e => if e.ExpiryTime ≤ now then es.dropLast else es)
      period sem now Reclaimer.atWait := by
  obtain ⟨h1, h2, ⟨h3, h4, h5⟩, h6⟩ := hg
  have hlen : es.length ≤ sem + 1 := by
    rcases h5 with h5 | ⟨h5, -⟩ <;> omega
  cases hb : es.getLast? with
  | none =>
    have : es = [] := List.getLast?_eq_none_iff.1 hb
    subst this
    exact ⟨h1, h2, Nat.zero_le _⟩
  | some b =>
    simp only
    split
    · refine ⟨fun e he => h1 e (List.mem_of_mem_dropLast he),
        h2.sublist (List.dropLast_sublist es), ?_⟩
      rw [List.length_dropLast]
      omega
    · rename_i hfresh
      refine ⟨h1, h2, ?_⟩
      rcases h5 with h5 | ⟨-, e, he, hu⟩
      · exact h5
      · rw [hb, Option.some.injEq] at he
        subst he
        omega

/-- One step keeps the invariant. -/
theorem step_inv {α : Type} {a : Action α} {s s' : System α} (h : step a s = some s')
    (hi : Inv s) : Inv s' := by
  obtain ⟨es, hl, hg⟩ := hi
  obtain ⟨⟨ll, period, ⟨sem⟩⟩, now, rc, added, returned⟩ := s
  simp only at hl hg
  subst hl
  cases a with
  | tick t =>
    simp only [step] at h
    split at h
    · rename_i hle
      cases h
      exact ⟨es, rfl, Good_tick hle hg⟩
    · cases h
  | add obj =>
    simp only [step] at h
    cases h
    exact ⟨{ Item := obj, ExpiryTime := expiryOf period now } :: es, rfl, Good_add obj hg⟩
  | retrieve =>
    simp only [step] at h
    split at h
    · cases h
    · cases h
      refine ⟨es.tail, ?_, ?_⟩
      · cases es <;> simp [Retrieve]
      · have hp : ∀ q : ExpiringObjectPool α,
            (Retrieve q).pool.ExpiryPeriod = q.ExpiryPeriod ∧ (Retrieve q).pool.Sem = q.Sem := by
          intro q
          unfold Retrieve
          split <;> exact ⟨rfl, rfl⟩
        simp only [hp]
        exact Good_tail hg
  | reclaimer =>
    cases rc with
    | atWait =>
      simp only [step, semWait_eq] at h
      split at h
      · rename_i hpos
        cases h
        refine ⟨es, rfl, ?_⟩
        obtain ⟨h1, h2, h3⟩ := hg
        exact ⟨h1, h2, by simp only; omega⟩
      · cases h
    | atPeek =>
      simp only [step, peekBack_map] at h
      obtain ⟨h1, h2, h3⟩ := hg
      cases hb : es.getLast? with
      | none =>
        rw [hb] at h
        cases h
        exact ⟨es, rfl, h1, h2, by
          rw [List.getLast?_eq_none_iff.1 hb]; exact Nat.zero_le _⟩
      | some b =>
        rw [hb] at h
        cases h
        exact ⟨es, rfl, h1, h2, h1 b (List.mem_of_getLast?_eq_some hb), back_earliest h2 hb,
          Or.inr ⟨h3, b, hb, rfl⟩⟩
    | asleep u =>
      simp only [step] at h
      split at h
      · rename_i hu
        cases h
        obtain ⟨h1, h2, h3⟩ := hg
        exact ⟨es, rfl, h1, h2, h3, hu⟩
      · cases h
    | atLock u =>
      simp only [step, (reclaim_map es period sem now).1, (reclaim_map es period sem now).2] at h
      cases h
      exact ⟨_, rfl, Good_reclaim hg⟩

/-- The invariant holds in every reachable state. -/
theorem reachable_inv {α : Type} {s : System α} (hs : Reachable s) : Inv s := by
  induction hs with
  | init p t0 =>
    exact ⟨[], rfl, by simp [start, NewTimedExiryPool, Good]⟩
  | next a _ h ih => exact step_inv h ih

/-- The elements of a list of non-nil elements. -/
theorem elements_map {α : Type} (p : ExpiringObjectPool α) (es : List (ExpiryElement α))
    (h : p.LinkedList = es.map Value.ptr) : elements p = es := by
  unfold elements
  rw [h]
  induction es generalizing p with
  | nil => rfl
  | cons e es ih => simp only [List.map_cons, List.filterMap_cons, Value.assert]; rw [ih ⟨es.map Value.ptr, 0, ⟨0⟩⟩ rfl]

/-- Whenever the reclaimer cannot take a step in a reachable state, no element in the
list has reached its deadline. -/
theorem blocked_fresh {α : Type} {s : System α} (hs : Reachable s)
    (hb : step Action.reclaimer s = none) :
    ∀ e ∈ elements s.pool, s.now < e.ExpiryTime := by
  obtain ⟨es, hl, hg⟩ := reachable_inv hs
  rw [elements_map s.pool es hl]
  obtain ⟨⟨ll, period, ⟨sem⟩⟩, now, rc, added, returned⟩ := s
  simp only at hl hg
  subst hl
  cases rc with
  | atWait =>
    simp only [step, semWait_eq] at hb
    split at hb
    · cases hb
    · rename_i hsem
      obtain ⟨-, -, h3⟩ := hg
      have : es = [] := List.eq_nil_of_length_eq_zero (by omega)
      subst this
      simp
  | atPeek =>
    simp only [step, peekBack_map] at hb
    cases hlast : es.getLast? <;> rw [hlast] at hb <;> cases hb
  | asleep u =>
    simp only [step] at hb
    split at hb
    · cases hb
    · rename_i hu
      obtain ⟨-, -, -, h4, -⟩ := hg
      intro e he
      have := h4 e he
      show now < e.ExpiryTime
      omega
  | atLock u =>
    simp only [step, (reclaim_map es period sem now).1] at hb
    cases hb

/-! ## The reclaimer running alone -/

/-- A step of the reclaimer lowers `reclaimerBound`, leaves the clock alone and only
ever shortens the list at the back. -/
theorem step_reclaimer {α : Type} {s s' : System α} (h : step Action.reclaimer s = some s') :
    reclaimerBound s' < reclaimerBound s ∧ s'.now = s.now ∧
      (elements s'.pool).Sublist (elements s.pool) := by
  obtain ⟨⟨ll, period, ⟨sem⟩⟩, now, rc, added, returned⟩ := s
  cases rc with
  | atWait =>
    simp only [step, semWait_eq] at h
    split at h
    · cases h
      refine ⟨?_, rfl, List.Sublist.refl _⟩
      simp only [reclaimerBound]
      omega
    · cases h
  | atPeek =>
    simp only [step] at h
    split at h
    · cases h
      exact ⟨by simp only [reclaimerBound]; omega, rfl, List.Sublist.refl _⟩
    · cases h
      exact ⟨by simp only [reclaimerBound]; omega, rfl, List.Sublist.refl _⟩
    · cases h
  | asleep u =>
    simp only [step] at h
    split at h
    · cases h
      exact ⟨by simp only [reclaimerBound]; omega, rfl, List.Sublist.refl _⟩
    · cases h
  | atLock u =>
    simp only [step] at h
    split at h
    · cases h
    · cases h
      have hsem : ∀ q : ExpiringObjectPool α, (reclaim q now).pool.Sem = q.Sem := by
        intro q
        unfold reclaim
        split
        · rfl
        · split
          · rfl
          · split <;> rfl
      have hsub : ∀ q : ExpiringObjectPool α,
          (elements (reclaim q now).pool).Sublist (elements q) := by
        intro q
        unfold reclaim
        split
        · exact List.Sublist.refl _
        · split
          · exact List.Sublist.refl _
          · split
            · exact (List.dropLast_sublist _).filterMap _
            · exact List.Sublist.refl _
      refine ⟨?_, rfl, hsub _⟩
      simp only [reclaimerBound, hsem]
      omega

/-- Given `reclaimerBound` steps, the reclaimer running alone comes to a halt: it ends
blocked in `Sem.Wait()` or in `time.Sleep`. The clock has not moved and the list has
only lost elements. -/
theorem reclaimerRun_halts {α : Type} (n : Nat) (s : System α) (h : reclaimerBound s ≤ n) :
    step Action.reclaimer (reclaimerRun n s) = none ∧ (reclaimerRun n s).now = s.now ∧
      (elements (reclaimerRun n s).pool).Sublist (elements s.pool) := by
  induction n generalizing s with
  | zero =>
    refine ⟨?_, rfl, List.Sublist.refl _⟩
    cases hs : step Action.reclaimer s with
    | none => simpa [reclaimerRun] using hs
    | some s' =>
      have := (step_reclaimer hs).1
      omega
  | succ n ih =>
    cases hs : step Action.reclaimer s with
    | none =>
      have hr : reclaimerRun (n + 1) s = s := by simp only [reclaimerRun, hs]
      rw [hr]
      exact ⟨hs, rfl, List.Sublist.refl _⟩
    | some s' =>
      have hr : reclaimerRun (n + 1) s = reclaimerRun n s' := by simp only [reclaimerRun, hs]
      rw [hr]
      obtain ⟨h1, h2, h3⟩ := step_reclaimer hs
      obtain ⟨k1, k2, k3⟩ := ih s' (by omega)
      exact ⟨k1, k2.trans h2, k3.trans h3⟩

/-- The reclaimer running alone leads from reachable states to reachable states. -/
theorem reclaimerRun_reachable {α : Type} (n : Nat) {s : System α} (hs : Reachable s) :
    Reachable (reclaimerRun n s) := by
  induction n generalizing s with
  | zero => exact hs
  | succ n ih =>
    cases h : step Action.reclaimer s with
    | none => simpa only [reclaimerRun, h] using hs
    | some s' =>
      simp only [reclaimerRun, h]
      exact ih (Reachable.next _ hs h)

/-- The deadline `Add` computes at time `t` is never later than `t` plus the period. -/
theorem expiryOf_le (period : Nat) (t : Int) :
    expiryOf period t ≤ t + (period : Int) * 1000000 := by
  have h1 : period * Millisecond % 2 ^ 64 ≤ period * Millisecond := Nat.mod_le _ _
  have h2 : ((period * Millisecond % 2 ^ 64 : Nat) : Int) ≤ (period : Int) * 1000000 := by
    have : ((period * Millisecond : Nat) : Int) = (period : Int) * 1000000 := by
      simp [Millisecond]
    rw [← this]
    exact Int.ofNat_le.2 h1
  simp only [expiryOf, toDuration, Nat.mod_mod]
  split
  · omega
  · have h3 : (0 : Int) ≤ (period : Int) * 1000000 := by positivity
    have h4 : ((period * Millisecond % 2 ^ 64 : Nat) : Int) < 2 ^ 64 := by
      have := Nat.mod_lt (period * Millisecond) (by norm_num : 2 ^ 64 > 0)
      exact_mod_cast this
    omega

/-- After a sequence of `Add` calls, as many `Retrieve` calls hand the added items back
in reverse order and restore the list; on a list that was empty, one more `Retrieve`
finds nothing. -/
theorem drain_addAll {α : Type} (s : ExpiringObjectPool α) (xs : List (Option α × Int)) :
    (∃ p, retrieveN xs.length (addAll s xs) = some (xs.reverse.map (fun x => (x.1, true)), p) ∧
        p.LinkedList = s.LinkedList) ∧
      (∀ period sem : Nat,
        (retrieveN (xs.length + 1)
            (addAll { LinkedList := [], ExpiryPeriod := period, Sem := { count := sem } } xs)).map Prod.fst =
          some (xs.reverse.map (fun x => (x.1, true)) ++ [(none, false)])) := by
  have key : ∀ s : ExpiringObjectPool α,
      retrieveN xs.length (addAll s xs) =
        some (xs.reverse.map (fun x => (x.1, true)),
          { addAll s xs with LinkedList := s.LinkedList }) := by
    intro s
    have h := retrieveN_elements
      (xs.reverse.map fun x => { Item := x.1, ExpiryTime := expiryOf s.ExpiryPeriod x.2 })
      (addAll s xs) s.LinkedList (by rw [addAll_eq]; simp [Function.comp_def])
    simpa only [List.length_map, List.length_reverse, List.map_map, Function.comp_def] using h
  refine ⟨⟨_, key s, rfl⟩, fun period sem => ?_⟩
  rw [retrieveN_add, key]
  simp only [Option.some_bind]
  rw [retrieveN_nil 1 _ rfl]
  simp

/-! ## Properties of the pool -/

/-- C1. LIFO drain: after `Add(x1), ..., Add(xn)` on any pool, the next `n` calls to
`Retrieve` return `(xn, true), ..., (x1, true)` in that order and leave the list as it
was before the first `Add`; starting from an empty list, the `(n+1)`-th `Retrieve`
returns `found = false`. -/
theorem C1_lifo_drain {α : Type} (s : ExpiringObjectPool α) (xs : List (Option α × Int)) :
    (∃ p, retrieveN xs.length (addAll s xs) = some (xs.reverse.map (fun x => (x.1, true)), p) ∧
        p.LinkedList = s.LinkedList) ∧
      (∀ period sem : Nat,
        (retrieveN (xs.length + 1)
            (addAll { LinkedList := [], ExpiryPeriod := period, Sem := { count := sem } } xs)).map Prod.fst =
          some (xs.reverse.map (fun x => (x.1, true)) ++ [(none, false)])) :=
  drain_addAll s xs

/-- C2. Round trip: a `Retrieve` that directly follows `Add(x)` returns exactly
`(x, true)` and leaves the list identical to what it was before the `Add`, whatever
the pool, the item, the period and the clock value. -/
theorem C2_add_retrieve_round_trip {α : Type} (s : ExpiringObjectPool α) (now : Int)
    (x : Option α) :
    (Retrieve (Add s now x).pool).result = some (x, true) ∧
      (Retrieve (Add s now x).pool).pool.LinkedList = s.LinkedList := by
  simp [Add, Retrieve, Value.assert]

/-- C3. `Retrieve` on an empty list returns `(nil, false)` and leaves the whole pool
unchanged, so any number of repeated calls each return `found = false`; the only
operation of `Retrieve` that can block is the mutex acquisition: it neither waits on the
semaphore nor sleeps. -/
theorem C3_retrieve_empty {α : Type} (p : ExpiringObjectPool α) (h : p.LinkedList = []) :
    (Retrieve p).result = some (none, false) ∧ (Retrieve p).pool = p ∧
      (∀ n, retrieveN n p = some (List.replicate n (none, false), p)) ∧
      (∀ q : ExpiringObjectPool α, ∀ ev ∈ (Retrieve q).trace,
        ev ≠ Event.semWait ∧ ∀ d, ev ≠ Event.sleep d) := by
  refine ⟨(Retrieve_nil p h).1, (Retrieve_nil p h).2, fun n => retrieveN_nil n p h, ?_⟩
  intro q
  unfold Retrieve
  split <;> simp

/-- C3 at a fresh pool. -/
theorem C3_retrieve_empty_witness :
    (Retrieve (NewTimedExiryPool 100 : ExpiringObjectPool Nat)).result = some (none, false) ∧
      (Retrieve (NewTimedExiryPool 100 : ExpiringObjectPool Nat)).pool = NewTimedExiryPool 100 ∧
      (∀ n, retrieveN n (NewTimedExiryPool 100 : ExpiringObjectPool Nat) =
        some (List.replicate n (none, false), NewTimedExiryPool 100)) ∧
      (∀ q : ExpiringObjectPool Nat, ∀ ev ∈ (Retrieve q).trace,
        ev ≠ Event.semWait ∧ ∀ d, ev ≠ Event.sleep d) :=
  C3_retrieve_empty (NewTimedExiryPool 100) rfl

/-- C4. An item retrieved strictly before its deadline is always returned. In every
reachable state, an element that was added and whose `ExpiryTime` is strictly after the
current time is in the list or was handed out by `Retrieve`; the locked re-check of the
reclaimer keeps every element whose deadline is strictly after `now`; and `Add(x)`
followed, after any steps of the clock and the reclaimer, by `Retrieve` at a time
strictly before the deadline of `x` returns `(x, true)`. -/
theorem C4_kept_before_deadline {α : Type} [DecidableEq α] :
    (∀ s : System α, Reachable s → ∀ e : ExpiryElement α, s.now < e.ExpiryTime →
        s.added.count e = (elements s.pool).count e + s.returned.count e) ∧
      (∀ (p : ExpiringObjectPool α) (now : Int) (e : ExpiryElement α), now < e.ExpiryTime →
        (elements (reclaim p now).pool).count e = (elements p).count e) ∧
      (∀ (s s' : System α) (x : Option α) (as : List (Action α)),
        (∀ a ∈ as, Action.background a = true) →
        run (Action.add x :: as) s = some s' →
        s'.now < expiryOf s.pool.ExpiryPeriod s.now →
        (Retrieve s'.pool).result = some (x, true)) := by
  refine ⟨fun s hs e he => reachable_kept hs e he, reclaim_count, ?_⟩
  intro s s' x as hb h he
  simp only [run, step, Option.some_bind] at h
  obtain ⟨rest', hr⟩ := front_stays as _ s'
    { Item := x, ExpiryTime := expiryOf s.pool.ExpiryPeriod s.now } s.pool.LinkedList rfl hb h he
  simp [Retrieve, hr, Value.assert]

/-- C4 on a pool with a period of 100ms: an object added at time 0 is still in the list
and handed out one nanosecond before its deadline, after the reclaimer woke up and went
to sleep. -/
theorem C4_kept_before_deadline_witness :
    ∃ s' : System Nat,
      run [Action.add (some 7), Action.reclaimer, Action.reclaimer, Action.tick 99999999]
          (start 100 0) = some s' ∧
        (Retrieve s'.pool).result = some (some 7, true) ∧
        s'.added.count { Item := some 7, ExpiryTime := 100000000 } =
          (elements s'.pool).count { Item := some 7, ExpiryTime := 100000000 } +
            s'.returned.count { Item := some 7, ExpiryTime := 100000000 } :=
  ⟨{ pool := { LinkedList := [Value.ptr { Item := some 7, ExpiryTime := 100000000 }]
               ExpiryPeriod := 100, Sem := { count := 0 } }
     now := 99999999, reclaimer := Reclaimer.asleep 100000000
     added := [{ Item := some 7, ExpiryTime := 100000000 }], returned := [] },
    by decide,
    C4_kept_before_deadline.2.2 (start 100 0) _ (some 7)
      [Action.reclaimer, Action.reclaimer, Action.tick 99999999]
      (by decide) (by decide) (by decide),
    C4_kept_before_deadline.1 _
      (Reachable.run [Action.add (some 7), Action.reclaimer, Action.reclaimer,
        Action.tick 99999999] (Reachable.init 100 0) (by decide))
      { Item := some 7, ExpiryTime := 100000000 } (by decide)⟩

set_option maxRecDepth 100000

/-- C5. Expiry. The deadline of an item added at time `t` is never later than `t` plus
the period. Whenever the reclaimer is blocked (in `Sem.Wait()` or in `time.Sleep`) in a
reachable state, no element that has reached its deadline is left in the list. The
reclaimer running alone gets there within `reclaimerBound` of its own steps, the
scheduling margin: after that, every element left has its deadline ahead, so `Retrieve`
returns `found = false` or the item of an element that has not expired, and
`found = false` when every element had reached its deadline. With a period of 100ms:
one item or 50 items added, the clock 120ms later and the reclaimer having run,
`Retrieve` returns `found = false`; A added, B and C added 50ms later, the clock another
50ms later and the reclaimer having run, the drain returns exactly the two items C and
B. -/
theorem C5_expired_unavailable {α : Type} :
    (∀ (period : Nat) (t : Int), expiryOf period t ≤ t + (period : Int) * 1000000) ∧
      (∀ s : System α, Reachable s → step Action.reclaimer s = none →
        ∀ e ∈ elements s.pool, s.now < e.ExpiryTime) ∧
      (∀ (s : System α) (n : Nat), Reachable s → reclaimerBound s ≤ n →
        step Action.reclaimer (reclaimerRun n s) = none ∧
        (reclaimerRun n s).now = s.now ∧
        (∀ e ∈ elements (reclaimerRun n s).pool, s.now < e.ExpiryTime) ∧
        ((Retrieve (reclaimerRun n s).pool).result = some (none, false) ∨
          ∃ e : ExpiryElement α, s.now < e.ExpiryTime ∧
            (Retrieve (reclaimerRun n s).pool).result = some (e.Item, true)) ∧
        ((∀ e ∈ elements s.pool, e.ExpiryTime ≤ s.now) →
          (Retrieve (reclaimerRun n s).pool).result = some (none, false))) ∧
      (run [Action.add (some 1), Action.reclaimer, Action.reclaimer, Action.tick 120000000,
          Action.reclaimer, Action.reclaimer] (start 100 0)).map
          (fun s : System Nat => (Retrieve s.pool).result) = some (some (none, false)) ∧
      (run (List.replicate 50 (Action.add (some 1)) ++ [Action.tick 120000000] ++
          List.replicate 200 Action.reclaimer) (start 100 0)).map
          (fun s : System Nat => (Retrieve s.pool).result) = some (some (none, false)) ∧
      (run [Action.add (some 1), Action.reclaimer, Action.reclaimer, Action.tick 50000000,
          Action.add (some 2), Action.add (some 3), Action.tick 100000000,
          Action.reclaimer, Action.reclaimer, Action.reclaimer, Action.reclaimer]
          (start 100 0)).bind (fun s : System Nat => (retrieveN 3 s.pool).map Prod.fst) =
        some [(some 3, true), (some 2, true), (none, false)] := by
  refine ⟨expiryOf_le, fun s hs hb => blocked_fresh hs hb, ?_, by decide, by decide, by decide⟩
  intro s n hs hn
  obtain ⟨h1, h2, h3⟩ := reclaimerRun_halts n s hn
  have hr := reclaimerRun_reachable n hs
  have hf : ∀ e ∈ elements (reclaimerRun n s).pool, s.now < e.ExpiryTime := by
    intro e he
    rw [← h2]
    exact blocked_fresh hr h1 e he
  obtain ⟨es, hl, -⟩ := reachable_inv hr
  have hes := elements_map _ es hl
  refine ⟨h1, h2, hf, ?_, ?_⟩
  · cases es with
    | nil => left; exact (Retrieve_nil _ hl).1
    | cons e es =>
      right
      refine ⟨e, hf e (by rw [hes]; exact List.mem_cons_self _ _), ?_⟩
      simp [Retrieve, hl, Value.assert]
  · intro hall
    cases es with
    | nil => exact (Retrieve_nil _ hl).1
    | cons e es =>
      have he : e ∈ elements (reclaimerRun n s).pool := by
        rw [hes]; exact List.mem_cons_self _ _
      have := hf e he
      have := hall e (h3.subset he)
      omega

/-- C5 in the state reached after one `Add` at time 0 with a period of 100ms, the
reclaimer having gone to sleep and the clock having moved to 120ms: the reclaimer
running alone halts and leaves nothing to retrieve. -/
theorem C5_expired_unavailable_witness :
    ∃ s : System Nat,
      run [Action.add (some 1), Action.reclaimer, Action.reclaimer, Action.tick 120000000]
          (start 100 0) = some s ∧
        reclaimerBound s ≤ 2 ∧
        (∀ e ∈ elements s.pool, e.ExpiryTime ≤ s.now) ∧
        step Action.reclaimer (reclaimerRun 2 s) = none ∧
        (∀ e ∈ elements (reclaimerRun 2 s).pool, s.now < e.ExpiryTime) ∧
        (Retrieve (reclaimerRun 2 s).pool).result = some (none, false) :=
  ⟨{ pool := { LinkedList := [Value.ptr { Item := some 1, ExpiryTime := 100000000 }]
               ExpiryPeriod := 100, Sem := { count := 0 } }
     now := 120000000, reclaimer := Reclaimer.asleep 100000000
     added := [{ Item := some 1, ExpiryTime := 100000000 }], returned := [] },
    by decide, by decide, by decide,
    (C5_expired_unavailable.2.2.1 _ 2
      (Reachable.run [Action.add (some 1), Action.reclaimer, Action.reclaimer,
        Action.tick 120000000] (Reachable.init 100 0) (by decide)) (by decide)).1,
    (C5_expired_unavailable.2.2.1 _ 2
      (Reachable.run [Action.add (some 1), Action.reclaimer, Action.reclaimer,
        Action.tick 120000000] (Reachable.init 100 0) (by decide)) (by decide)).2.2.1,
    (C5_expired_unavailable.2.2.1 _ 2
      (Reachable.run [Action.add (some 1), Action.reclaimer, Action.reclaimer,
        Action.tick 120000000] (Reachable.init 100 0) (by decide)) (by decide)).2.2.2.2
      (by decide)⟩

/-- C6, evaluated where it fails. With `ExpiryPeriod = 9223372036855` milliseconds (a
`uint64`), the product with `uint64(time.Millisecond)` read as a `time.Duration` is
negative: the element `Add` inserts at time `now = 0` has a deadline some 292 years
before `now` instead of `now + 9223372036855` milliseconds. -/
theorem C6_deadline_overflow :
    (9223372036855 : Nat) < 2 ^ 64 ∧
      (Add ({ LinkedList := [], ExpiryPeriod := 9223372036855, Sem := { count := 0 } } :
          ExpiringObjectPool Nat) 0 (some 1)).pool.LinkedList =
        [Value.ptr { Item := some 1, ExpiryTime := -9223372036854551616 }] ∧
      expiryOf 9223372036855 0 ≠ 0 + 9223372036855 * 1000000 ∧
      expiryOf 9223372036855 0 < 0 := by
  decide

/-- C7. `Retrieve` never checks deadlines: it returns the item of the front element with
`found = true` even when that element's `ExpiryTime` is at or before the clock value; it
never reads the clock; and on two systems whose lists hold the same items in the same
order, whatever their `ExpiryTime` values and clock values, it returns the same result
and leaves the same sequence of items. -/
theorem C7_retrieve_ignores_deadlines {α : Type} :
    (∀ (s : System α) (e : ExpiryElement α) (rest : List (Value α)),
        s.pool.LinkedList = Value.ptr e :: rest → e.ExpiryTime ≤ s.now →
        (Retrieve s.pool).result = some (e.Item, true)) ∧
      (∀ (p : ExpiringObjectPool α), Event.timeNow ∉ (Retrieve p).trace) ∧
      (∀ (s1 s2 : System α) (es1 es2 : List (ExpiryElement α)),
        s1.pool.LinkedList = es1.map Value.ptr → s2.pool.LinkedList = es2.map Value.ptr →
        es1.map ExpiryElement.Item = es2.map ExpiryElement.Item →
        (Retrieve s1.pool).result = (Retrieve s2.pool).result ∧
          items (Retrieve s1.pool).pool = items (Retrieve s2.pool).pool) := by
  refine ⟨?_, ?_, ?_⟩
  · intro s e rest hl _
    simp [Retrieve, hl, Value.assert]
  · intro p
    unfold Retrieve
    split <;> simp
  · intro s1 s2 es1 es2 h1 h2 hi
    have hf : ∀ es : List (ExpiryElement α), List.filterMap Value.assert (es.map Value.ptr) = es := by
      intro es
      induction es with
      | nil => rfl
      | cons e es ih => simp [List.filterMap_cons, Value.assert, ih]
    cases es1 with
    | nil =>
      cases es2 with
      | nil =>
        simp only [List.map_nil] at h1 h2
        simp [Retrieve, h1, h2, items, elements]
      | cons e2 es2 => simp at hi
    | cons e1 es1 =>
      cases es2 with
      | nil => simp at hi
      | cons e2 es2 =>
        simp only [List.map_cons, List.cons.injEq] at h1 h2 hi
        simp [Retrieve, h1, h2, items, elements, Value.assert, hi.1, hi.2, hf]

/-- C7 on two lists holding the items 1 and 2 with different deadlines, both read at
clock values past every deadline. -/
theorem C7_retrieve_ignores_deadlines_witness :
    (Retrieve
      ({ LinkedList := [Value.ptr { Item := some 1, ExpiryTime := 5 },
                         Value.ptr { Item := some 2, ExpiryTime := 3 }],
         ExpiryPeriod := 100, Sem := { count := 2 } } : ExpiringObjectPool Nat)).result = some (some 1, true) ∧
    (Retrieve
      ({ LinkedList := [Value.ptr { Item := some 1, ExpiryTime := 5 },
                         Value.ptr { Item := some 2, ExpiryTime := 3 }],
         ExpiryPeriod := 100, Sem := { count := 2 } } : ExpiringObjectPool Nat)).result =
    (Retrieve
      ({ LinkedList := [Value.ptr { Item := some 1, ExpiryTime := 70 },
                         Value.ptr { Item := some 2, ExpiryTime := 60 }],
         ExpiryPeriod := 100, Sem := { count := 2 } } : ExpiringObjectPool Nat)).result ∧
    items (Retrieve
      ({ LinkedList := [Value.ptr { Item := some 1, ExpiryTime := 5 },
                         Value.ptr { Item := some 2, ExpiryTime := 3 }],
         ExpiryPeriod := 100, Sem := { count := 2 } } : ExpiringObjectPool Nat)).pool =
    items (Retrieve
      ({ LinkedList := [Value.ptr { Item := some 1, ExpiryTime := 70 },
                         Value.ptr { Item := some 2, ExpiryTime := 60 }],
         ExpiryPeriod := 100, Sem := { count := 2 } } : ExpiringObjectPool Nat)).pool :=
  ⟨C7_retrieve_ignores_deadlines.1
      { pool :=
          { LinkedList := [Value.ptr { Item := some 1, ExpiryTime := 5 },
                            Value.ptr { Item := some 2, ExpiryTime := 3 }],
            ExpiryPeriod := 100, Sem := { count := 2 } },
        now := 9, reclaimer := Reclaimer.atPeek, added := [], returned := [] }
      { Item := some 1, ExpiryTime := 5 } [Value.ptr { Item := some 2, ExpiryTime := 3 }]
      rfl (by decide),
    C7_retrieve_ignores_deadlines.2.2
      { pool :=
          { LinkedList := [Value.ptr { Item := some 1, ExpiryTime := 5 },
                            Value.ptr { Item := some 2, ExpiryTime := 3 }],
            ExpiryPeriod := 100, Sem := { count := 2 } },
        now := 9, reclaimer := Reclaimer.atPeek, added := [], returned := [] }
      { pool :=
          { LinkedList := [Value.ptr { Item := some 1, ExpiryTime := 70 },
                            Value.ptr { Item := some 2, ExpiryTime := 60 }],
            ExpiryPeriod := 100, Sem := { count := 2 } },
        now := 200, reclaimer := Reclaimer.atWait, added := [], returned := [] }
      [{ Item := some 1, ExpiryTime := 5 }, { Item := some 2, ExpiryTime := 3 }]
      [{ Item := some 1, ExpiryTime := 70 }, { Item := some 2, ExpiryTime := 60 }]
      rfl rfl rfl⟩

/-- C8. No loss, no duplication: when the `Add` calls for the values `xs` are serialised
in any order `ys` (each with the clock value it read), the `N = xs.length` following
`Retrieve` calls all return `found = true`, the items they return are a permutation of
`xs`, and, the list having been empty before, the `(N+1)`-th `Retrieve` returns
`found = false`. -/
theorem C8_no_loss_no_duplication {α : Type} (s : ExpiringObjectPool α)
    (xs : List (Option α)) (ys : List (Option α × Int)) (h : (ys.map Prod.fst).Perm xs) :
    ∃ rs p, retrieveN xs.length (addAll s ys) = some (rs, p) ∧
      rs.map Prod.snd = List.replicate xs.length true ∧
      (rs.map Prod.fst).Perm xs ∧
      p.LinkedList = s.LinkedList ∧
      (s.LinkedList = [] → (Retrieve p).result = some (none, false)) := by
  have hlen : xs.length = ys.length := by
    rw [← h.length_eq, List.length_map]
  obtain ⟨⟨p, hp, hl⟩, -⟩ := drain_addAll s ys
  refine ⟨_, p, by rw [hlen]; exact hp, ?_, ?_, hl, ?_⟩
  · rw [hlen, List.map_map]
    simp [Function.comp_def, List.eq_replicate_iff]
  · rw [List.map_map]
    have : (Prod.fst ∘ fun x : Option α × Int => (x.1, true)) = Prod.fst := rfl
    rw [this]
    exact ((List.reverse_perm ys).map Prod.fst).trans h
  · intro hs
    exact (Retrieve_nil p (hl.trans hs)).1

/-- C8 for the values 1, 2, 3 added in the order 2, 3, 1. -/
theorem C8_no_loss_no_duplication_witness :
    ∃ rs p,
      retrieveN 3 (addAll (NewTimedExiryPool 100) [(some 2, 0), (some 3, 0), (some 1, 1)]) =
        some (rs, p) ∧
      rs.map Prod.snd = List.replicate 3 true ∧
      (rs.map Prod.fst).Perm [some 1, some 2, some 3] ∧
      p.LinkedList = (NewTimedExiryPool 100 : ExpiringObjectPool Nat).LinkedList ∧
      ((NewTimedExiryPool 100 : ExpiringObjectPool Nat).LinkedList = [] →
        (Retrieve p).result = some (none, false)) :=
  C8_no_loss_no_duplication (NewTimedExiryPool 100) [some 1, some 2, some 3]
    [(some 2, 0), (some 3, 0), (some 1, 1)] (by decide)

/-- C9. Totality: in every state reachable from `NewTimedExiryPool` through `Add`,
`Retrieve` and the reclaimer, every value in the list is a non-nil `*ExpiryElement`, so
neither `Retrieve` nor the two looks of the reclaimer at the back of the list panic;
`Add` returns normally for every pool, clock value and item, nil included, and
`Retrieve` returns normally on the empty list. -/
theorem C9_totality {α : Type} :
    (∀ s : System α, Reachable s →
        (∀ v ∈ s.pool.LinkedList, ∃ e, v = Value.ptr e) ∧
        (∃ r, (Retrieve s.pool).result = some r) ∧
        peekBack s.pool ≠ Peek.panic ∧
        (∀ now, (reclaim s.pool now).result = some ())) ∧
      (∀ (p : ExpiringObjectPool α) (now : Int) (obj : Option α),
        (Add p now obj).result = some ()) ∧
      (∀ period sem : Nat,
        (Retrieve ({ LinkedList := [], ExpiryPeriod := period, Sem := { count := sem } } :
          ExpiringObjectPool α)).result = some (none, false)) := by
  refine ⟨fun s hs => ?_, fun _ _ _ => rfl, fun _ _ => rfl⟩
  have hp := reachable_ptr hs
  refine ⟨hp, ?_, ?_, ?_⟩
  · unfold Retrieve
    split
    · rename_i v rest hl
      obtain ⟨e, he⟩ := hp v (by rw [hl]; exact List.mem_cons_self _ _)
      exact ⟨(e.Item, true), by simp [he, Value.assert]⟩
    · exact ⟨_, rfl⟩
  · unfold peekBack
    split
    · simp
    · rename_i v hv
      obtain ⟨e, he⟩ := hp v (List.mem_of_getLast?_eq_some hv)
      simp [he, Value.assert]
  · intro now
    unfold reclaim
    split
    · rfl
    · rename_i v hv
      obtain ⟨e, he⟩ := hp v (List.mem_of_getLast?_eq_some hv)
      subst he
      simp only [Value.assert]
      split <;> rfl

/-- C9 in the state reached by two `Add` calls, one of them with a nil item, and one
reclaimer step. -/
theorem C9_totality_witness :
    ∃ s : System Nat,
      run [Action.add none, Action.add (some 4), Action.reclaimer] (start 100 0) = some s ∧
        (∀ v ∈ s.pool.LinkedList, ∃ e, v = Value.ptr e) ∧
        (∃ r, (Retrieve s.pool).result = some r) ∧
        peekBack s.pool ≠ Peek.panic ∧
        (∀ now, (reclaim s.pool now).result = some ()) :=
  ⟨_, rfl, C9_totality.1 _
    (Reachable.run [Action.add none, Action.add (some 4), Action.reclaimer]
      (Reachable.init 100 0) rfl)⟩

/-- C10. Construction: for every `expiryTimeInMilli`, `NewTimedExiryPool` returns a pool
whose list is empty and whose `ExpiryPeriod` is `expiryTimeInMilli`, with the reclaimer
goroutine started; a `Retrieve` issued before any `Add` returns `found = false`, and the
pool is immediately usable for `Add`: the call returns and the object can be retrieved. -/
theorem C10_construction {α : Type} (expiryTimeInMilli : Nat) (t0 : Int) :
    (NewTimedExiryPool expiryTimeInMilli : ExpiringObjectPool α).LinkedList = [] ∧
      (NewTimedExiryPool expiryTimeInMilli : ExpiringObjectPool α).ExpiryPeriod =
        expiryTimeInMilli ∧
      (start expiryTimeInMilli t0 : System α).pool = NewTimedExiryPool expiryTimeInMilli ∧
      (start expiryTimeInMilli t0 : System α).reclaimer = Reclaimer.atWait ∧
      (Retrieve (NewTimedExiryPool expiryTimeInMilli : ExpiringObjectPool α)).result =
        some (none, false) ∧
      (∀ (now : Int) (obj : Option α),
        (Add (NewTimedExiryPool expiryTimeInMilli) now obj).result = some () ∧
        (Retrieve (Add (NewTimedExiryPool expiryTimeInMilli) now obj).pool).result =
          some (obj, true)) := by
  refine ⟨rfl, rfl, rfl, rfl, rfl, fun now obj => ⟨rfl, ?_⟩⟩
  simp [Add, Retrieve, Value.assert]

/-! ## The reclaimer: one iteration -/

/-- The locked re-check on an empty list leaves the pool as it is. -/
theorem reclaim_nil {α : Type} (p : ExpiringObjectPool α) (now : Int)
    (h : p.LinkedList = []) : (reclaim p now).pool = p := by
  simp [reclaim, h]

/-- The locked re-check on a list whose back value is the element `e`: the back element
goes when its deadline is at or before `now`, and the pool stays as it is otherwise. -/
theorem reclaim_concat {α : Type} (p : ExpiringObjectPool α) (now : Int)
    (l : List (Value α)) (e : ExpiryElement α) (h : p.LinkedList = l ++ [Value.ptr e]) :
    (reclaim p now).result = some () ∧
      (e.ExpiryTime ≤ now → (reclaim p now).pool = { p with LinkedList := l }) ∧
      (now < e.ExpiryTime → (reclaim p now).pool = p) := by
  have h1 : (e.ExpiryTime < now ∨ now = e.ExpiryTime) ↔ e.ExpiryTime ≤ now := by
    constructor <;> intro h <;> omega
  simp only [reclaim, h, List.getLast?_concat, Value.assert, h1]
  refine ⟨by split <;> rfl, fun hle => ?_, fun hlt => ?_⟩
  · simp [hle, List.dropLast_concat]
  · have : ¬ e.ExpiryTime ≤ now := by omega
    simp only [this, if_false]

/-- The locked re-check shortens the list by at most one value, and when it shortens
it, the back value was an element that had reached its deadline. -/
theorem reclaim_length {α : Type} (p : ExpiringObjectPool α) (now : Int) :
    (reclaim p now).pool.LinkedList.length ≤ p.LinkedList.length ∧
      p.LinkedList.length ≤ (reclaim p now).pool.LinkedList.length + 1 ∧
      ((reclaim p now).pool.LinkedList.length < p.LinkedList.length →
        ∃ l e, p.LinkedList = l ++ [Value.ptr e] ∧ e.ExpiryTime ≤ now) := by
  unfold reclaim
  split
  · simp
  · rename_i v hv
    split
    · simp
    · rename_i e he
      have hv2 : v = Value.ptr e := by
        cases v <;> simp [Value.assert] at he
        rw [he]
      split
      · rename_i hexp
        simp only [List.length_dropLast]
        refine ⟨by omega, by omega, fun _ => ⟨p.LinkedList.dropLast, e, ?_, by omega⟩⟩
        have := List.dropLast_append_getLast? v (by simpa using hv)
        rw [hv2] at this
        exact this.symm
      · simp

/-- C11. Reclaim step, inclusive boundary: the locked re-check of one reclaimer
iteration removes the back entry if and only if the list is non-empty and the back
entry's `ExpiryTime` is at or before `now` (`now = ExpiryTime` counts as expired); when
it removes, all other entries and their order are unchanged; when the list is empty or
the back entry's deadline is strictly after `now`, the pool is left exactly as it was. -/
theorem C11_reclaim_inclusive {α : Type} (p : ExpiringObjectPool α) (now : Int) :
    ((reclaim p now).pool.LinkedList.length < p.LinkedList.length ↔
        ∃ l e, p.LinkedList = l ++ [Value.ptr e] ∧ e.ExpiryTime ≤ now) ∧
      (∀ l e, p.LinkedList = l ++ [Value.ptr e] → e.ExpiryTime ≤ now →
        (reclaim p now).pool = { p with LinkedList := l }) ∧
      (∀ l e, p.LinkedList = l ++ [Value.ptr e] → now = e.ExpiryTime →
        (reclaim p now).pool = { p with LinkedList := l }) ∧
      (∀ l e, p.LinkedList = l ++ [Value.ptr e] → now < e.ExpiryTime →
        (reclaim p now).pool = p) ∧
      (p.LinkedList = [] → (reclaim p now).pool = p) := by
  refine ⟨⟨(reclaim_length p now).2.2, ?_⟩, ?_, ?_, ?_, reclaim_nil p now⟩
  · rintro ⟨l, e, hl, he⟩
    rw [(reclaim_concat p now l e hl).2.1 he, hl]
    simp
  · intro l e hl he
    exact (reclaim_concat p now l e hl).2.1 he
  · intro l e hl he
    exact (reclaim_concat p now l e hl).2.1 (by omega)
  · intro l e hl he
    exact (reclaim_concat p now l e hl).2.2 he

/-- C11 on a list of two elements, re-checked exactly at the deadline of the back
element: the back element goes and the front element stays. -/
theorem C11_reclaim_inclusive_witness :
    (reclaim ({ LinkedList := [Value.ptr { Item := some 2, ExpiryTime := 9 },
                                Value.ptr { Item := some 1, ExpiryTime := 5 }],
                ExpiryPeriod := 3, Sem := { count := 1 } } : ExpiringObjectPool Nat) 5).pool =
      { LinkedList := [Value.ptr { Item := some 2, ExpiryTime := 9 }],
        ExpiryPeriod := 3, Sem := { count := 1 } } :=
  (C11_reclaim_inclusive
    ({ LinkedList := [Value.ptr { Item := some 2, ExpiryTime := 9 },
                       Value.ptr { Item := some 1, ExpiryTime := 5 }],
       ExpiryPeriod := 3, Sem := { count := 1 } } : ExpiringObjectPool Nat) 5).2.2.1
    [Value.ptr { Item := some 2, ExpiryTime := 9 }] { Item := some 1, ExpiryTime := 5 }
    rfl rfl

/-- The locked re-check touches neither the semaphore nor the period. -/
theorem reclaim_frame {α : Type} (p : ExpiringObjectPool α) (now : Int) :
    (reclaim p now).pool.Sem = p.Sem ∧ (reclaim p now).pool.ExpiryPeriod = p.ExpiryPeriod := by
  unfold reclaim
  split
  · exact ⟨rfl, rfl⟩
  · split
    · exact ⟨rfl, rfl⟩
    · split <;> exact ⟨rfl, rfl⟩

/-- A step of the clock or of the reclaimer adds no signal and no value, and never
removes more values from the list than the signals it consumes, counting a started
iteration as a consumed signal that may still remove one value. -/
theorem step_background_signals {α : Type} {a : Action α} {s s' : System α}
    (ha : Action.background a = true) (h : step a s = some s') :
    s'.pool.Sem.count ≤ s.pool.Sem.count ∧
      s'.pool.LinkedList.length ≤ s.pool.LinkedList.length ∧
      s.pool.LinkedList.length + s'.pool.Sem.count + inIteration s'.reclaimer ≤
        s'.pool.LinkedList.length + s.pool.Sem.count + inIteration s.reclaimer := by
  obtain ⟨⟨ll, period, ⟨sem⟩⟩, now, rc, added, returned⟩ := s
  cases a with
  | add obj => simp [Action.background] at ha
  | retrieve => simp [Action.background] at ha
  | tick t =>
    simp only [step] at h
    split at h
    · cases h; exact ⟨le_refl _, le_refl _, le_refl _⟩
    · cases h
  | reclaimer =>
    cases rc with
    | atWait =>
      simp only [step, semWait_eq] at h
      split at h
      · rename_i hpos
        cases h
        simp only [inIteration]
        have hpos' : 0 < sem := hpos
        refine ⟨?_, le_refl _, ?_⟩ <;> omega
      · cases h
    | atPeek =>
      simp only [step] at h
      split at h
      · cases h; simp only [inIteration]; refine ⟨le_refl _, le_refl _, ?_⟩; omega
      · cases h; simp only [inIteration]; refine ⟨le_refl _, le_refl _, ?_⟩; omega
      · cases h
    | asleep u =>
      simp only [step] at h
      split at h
      · cases h; simp only [inIteration]; refine ⟨le_refl _, le_refl _, ?_⟩; omega
      · cases h
    | atLock u =>
      simp only [step] at h
      split at h
      · cases h
      · cases h
        have h1 := reclaim_length
          ({ LinkedList := ll, ExpiryPeriod := period, Sem := { count := sem } } :
            ExpiringObjectPool α) now
        have h2 := (reclaim_frame
          ({ LinkedList := ll, ExpiryPeriod := period, Sem := { count := sem } } :
            ExpiringObjectPool α) now).1
        simp only [inIteration, h2]
        refine ⟨le_refl _, h1.1, ?_⟩
        have h3 := h1.2.1
        dsimp only at h3
        omega

/-- Along any sequence of steps of the clock and the reclaimer, no signal and no value
is added, and the number of values removed from the list is at most the number of
signals consumed. -/
theorem run_background_signals {α : Type} (as : List (Action α)) {s s' : System α}
    (hb : ∀ a ∈ as, Action.background a = true) (h : run as s = some s') :
    s'.pool.Sem.count ≤ s.pool.Sem.count ∧
      s'.pool.LinkedList.length ≤ s.pool.LinkedList.length ∧
      s.pool.LinkedList.length + s'.pool.Sem.count + inIteration s'.reclaimer ≤
        s'.pool.LinkedList.length + s.pool.Sem.count + inIteration s.reclaimer := by
  induction as generalizing s with
  | nil => simp only [run] at h; cases h; exact ⟨le_refl _, le_refl _, le_refl _⟩
  | cons a as ih =>
    simp only [run] at h
    cases h1 : step a s with
    | none => simp [h1] at h
    | some s1 =>
      rw [h1] at h
      have k1 := step_background_signals (hb a (List.mem_cons_self _ _)) h1
      have k2 := ih (fun b hb1 => hb b (List.mem_cons_of_mem _ hb1)) h
      refine ⟨?_, ?_, ?_⟩ <;> omega

/-- C12. Single reclaim per wake cycle: the locked re-check, and hence every step of the
reclaimer, shortens the list by at most one entry, even when two or more entries at the
back have expired; the list only changes in the re-check that ends an iteration, and an
iteration starts by consuming one signal, so along any run of the reclaimer the entries
removed are at most the signals consumed. With two entries added at time 0 and a period
of 100ms, at 200ms one iteration removes only the older one; the other one goes in a
second iteration, which consumes the second signal. -/
theorem C12_single_reclaim {α : Type} :
    (∀ (p : ExpiringObjectPool α) (now : Int),
        p.LinkedList.length ≤ (reclaim p now).pool.LinkedList.length + 1) ∧
      (∀ s s' : System α, step Action.reclaimer s = some s' →
        s.pool.LinkedList.length ≤ s'.pool.LinkedList.length + 1 ∧
        (s'.pool.LinkedList ≠ s.pool.LinkedList →
          (∃ u, s.reclaimer = Reclaimer.atLock u) ∧ s'.reclaimer = Reclaimer.atWait) ∧
        (s.reclaimer = Reclaimer.atWait →
          s'.pool.Sem.count + 1 = s.pool.Sem.count ∧ s'.reclaimer = Reclaimer.atPeek)) ∧
      (∀ (s s' : System α) (as : List (Action α)),
        (∀ a ∈ as, Action.background a = true) → run as s = some s' →
        s.reclaimer = Reclaimer.atWait →
        s.pool.LinkedList.length - s'.pool.LinkedList.length ≤
          s.pool.Sem.count - s'.pool.Sem.count ∧ s'.pool.Sem.count ≤ s.pool.Sem.count) ∧
      (run [Action.add (some 1), Action.add (some 2), Action.tick 200000000,
          Action.reclaimer, Action.reclaimer, Action.reclaimer, Action.reclaimer]
          (start 100 0)).map (fun s : System Nat => (s.pool.LinkedList, s.pool.Sem.count)) =
        some ([Value.ptr { Item := some 2, ExpiryTime := 100000000 }], 1) ∧
      (run [Action.add (some 1), Action.add (some 2), Action.tick 200000000,
          Action.reclaimer, Action.reclaimer, Action.reclaimer, Action.reclaimer,
          Action.reclaimer, Action.reclaimer, Action.reclaimer, Action.reclaimer]
          (start 100 0)).map (fun s : System Nat => (s.pool.LinkedList, s.pool.Sem.count)) =
        some ([], 0) := by
  refine ⟨fun p now => (reclaim_length p now).2.1, ?_, ?_, by decide, by decide⟩
  · intro s s' h
    obtain ⟨⟨ll, period, ⟨sem⟩⟩, now, rc, added, returned⟩ := s
    cases rc with
    | atWait =>
      simp only [step, semWait_eq] at h
      split at h
      · rename_i hpos
        cases h
        have hpos' : 0 < sem := hpos
        refine ⟨by simp, fun hne => absurd rfl hne, fun _ => ⟨by simp only; omega, rfl⟩⟩
      · cases h
    | atPeek =>
      simp only [step] at h
      split at h
      · cases h; exact ⟨by simp, fun hne => absurd rfl hne, fun hw => by cases hw⟩
      · cases h; exact ⟨by simp, fun hne => absurd rfl hne, fun hw => by cases hw⟩
      · cases h
    | asleep u =>
      simp only [step] at h
      split at h
      · cases h; exact ⟨by simp, fun hne => absurd rfl hne, fun hw => by cases hw⟩
      · cases h
    | atLock u =>
      simp only [step] at h
      split at h
      · cases h
      · cases h
        exact ⟨(reclaim_length _ now).2.1, fun _ => ⟨⟨u, rfl⟩, rfl⟩, fun hw => by cases hw⟩
  · intro s s' as hb h hw
    have k := run_background_signals as hb h
    have k0 : inIteration s.reclaimer = 0 := by rw [hw]; rfl
    have k1 : inIteration s'.reclaimer ≤ 1 := by cases s'.reclaimer <;> simp [inIteration]
    have k2 : s'.pool.LinkedList.length ≤ s.pool.LinkedList.length ∨
        s.pool.LinkedList.length ≤ s'.pool.LinkedList.length := by omega
    omega

/-- C12 on the state with two expired entries and two pending signals: the four steps of
one iteration remove one entry and consume one signal. -/
theorem C12_single_reclaim_witness :
    ∃ s s' : System Nat,
      run [Action.add (some 1), Action.add (some 2), Action.tick 200000000] (start 100 0) =
          some s ∧
        run [Action.reclaimer, Action.reclaimer, Action.reclaimer, Action.reclaimer] s =
          some s' ∧
        s.pool.LinkedList.length = 2 ∧ s'.pool.LinkedList.length = 1 ∧
        s.pool.LinkedList.length - s'.pool.LinkedList.length ≤
          s.pool.Sem.count - s'.pool.Sem.count ∧ s'.pool.Sem.count ≤ s.pool.Sem.count :=
  ⟨{ pool := { LinkedList := [Value.ptr { Item := some 2, ExpiryTime := 100000000 },
                               Value.ptr { Item := some 1, ExpiryTime := 100000000 }],
               ExpiryPeriod := 100, Sem := { count := 2 } },
     now := 200000000, reclaimer := Reclaimer.atWait,
     added := [{ Item := some 2, ExpiryTime := 100000000 },
               { Item := some 1, ExpiryTime := 100000000 }],
     returned := [] },
   { pool := { LinkedList := [Value.ptr { Item := some 2, ExpiryTime := 100000000 }],
               ExpiryPeriod := 100, Sem := { count := 1 } },
     now := 200000000, reclaimer := Reclaimer.atWait,
     added := [{ Item := some 2, ExpiryTime := 100000000 },
               { Item := some 1, ExpiryTime := 100000000 }],
     returned := [] },
   by decide, by decide, rfl, rfl,
   C12_single_reclaim.2.2.1 _ _
     [Action.reclaimer, Action.reclaimer, Action.reclaimer, Action.reclaimer]
     (by decide) (by decide) rfl⟩

/-! ## Order of deadlines -/

/-- Retrieve only ever removes an element from the list. -/
theorem Retrieve_sublist {α : Type} (p : ExpiringObjectPool α) :
    (elements (Retrieve p).pool).Sublist (elements p) := by
  unfold Retrieve
  split
  · rename_i v rest h
    simp only [elements, h]
    exact (List.sublist_cons_self v rest).filterMap _
  · exact List.Sublist.refl _

/-- The locked re-check only ever removes an element from the list. -/
theorem reclaim_sublist {α : Type} (p : ExpiringObjectPool α) (now : Int) :
    (elements (reclaim p now).pool).Sublist (elements p) := by
  unfold reclaim
  split
  · exact List.Sublist.refl _
  · split
    · exact List.Sublist.refl _
    · split
      · exact (List.dropLast_sublist _).filterMap _
      · exact List.Sublist.refl _

/-- C13. Deadline-order invariant: in every state reachable from `NewTimedExiryPool`
through `Add`, `Retrieve` and reclaimer steps over a non-decreasing clock, the
`ExpiryTime` values do not decrease from the back of the list to the front, so the back
entry has the earliest deadline in the list; and each of `Add` (no deadline in the list
being later than the one it computes, as is the case in every reachable state),
`Retrieve` and the reclaim step preserves this order. -/
theorem C13_deadline_order {α : Type} :
    (∀ s : System α, Reachable s →
        deadlineOrdered s.pool ∧
        (∀ e ∈ elements s.pool, e.ExpiryTime ≤ expiryOf s.pool.ExpiryPeriod s.now) ∧
        (∀ b, (elements s.pool).getLast? = some b →
          ∀ e ∈ elements s.pool, b.ExpiryTime ≤ e.ExpiryTime)) ∧
      (∀ (p : ExpiringObjectPool α) (now : Int) (obj : Option α), deadlineOrdered p →
        (∀ e ∈ elements p, e.ExpiryTime ≤ expiryOf p.ExpiryPeriod now) →
        deadlineOrdered (Add p now obj).pool) ∧
      (∀ p : ExpiringObjectPool α, deadlineOrdered p → deadlineOrdered (Retrieve p).pool) ∧
      (∀ (p : ExpiringObjectPool α) (now : Int), deadlineOrdered p →
        deadlineOrdered (reclaim p now).pool) := by
  refine ⟨fun s hs => ?_, ?_, ?_, ?_⟩
  · obtain ⟨es, hl, hg⟩ := reachable_inv hs
    have hes := elements_map _ es hl
    have h12 : (∀ e ∈ es, e.ExpiryTime ≤ expiryOf s.pool.ExpiryPeriod s.now) ∧
        es.Pairwise (fun a b => b.ExpiryTime ≤ a.ExpiryTime) := by
      cases hr : s.reclaimer <;> rw [hr] at hg <;> exact ⟨hg.1, hg.2.1⟩
    unfold deadlineOrdered
    rw [hes]
    exact ⟨h12.2, h12.1, fun b hb => back_earliest h12.2 hb⟩
  · intro p now obj h1 h2
    unfold deadlineOrdered at *
    have : elements (Add p now obj).pool =
        { Item := obj, ExpiryTime := expiryOf p.ExpiryPeriod now } :: elements p := by
      simp [elements, Add, Value.assert]
    rw [this]
    exact List.pairwise_cons.2 ⟨h2, h1⟩
  · intro p h
    exact List.Pairwise.sublist (Retrieve_sublist p) h
  · intro p now h
    exact List.Pairwise.sublist (reclaim_sublist p now) h

/-- C13 in the state reached by an `Add` at time 0 and two at time 50ms. -/
theorem C13_deadline_order_witness :
    ∃ s : System Nat,
      run [Action.add (some 1), Action.tick 50000000, Action.add (some 2), Action.add (some 3)]
          (start 100 0) = some s ∧
        elements s.pool = [{ Item := some 3, ExpiryTime := 150000000 },
          { Item := some 2, ExpiryTime := 150000000 },
          { Item := some 1, ExpiryTime := 100000000 }] ∧
        deadlineOrdered s.pool ∧
        (∀ e ∈ elements s.pool, e.ExpiryTime ≤ expiryOf s.pool.ExpiryPeriod s.now) ∧
        (∀ b, (elements s.pool).getLast? = some b →
          ∀ e ∈ elements s.pool, b.ExpiryTime ≤ e.ExpiryTime) :=
  ⟨_, rfl, rfl, C13_deadline_order.1 _
    (Reachable.run [Action.add (some 1), Action.tick 50000000, Action.add (some 2),
      Action.add (some 3)] (Reachable.init 100 0) rfl)⟩

/-! ## Frame of Add and Retrieve -/

/-- C14. Add signals exactly once: for every pool, empty or not, and every item, one
call to `Add` increases the semaphore's count by exactly one, through one `Signal`
call, and lengthens the list by exactly one entry placed at the front, leaving all
existing entries and `ExpiryPeriod` unchanged. -/
theorem C14_add_signals_once {α : Type} (p : ExpiringObjectPool α) (now : Int)
    (obj : Option α) :
    (Add p now obj).pool.Sem.count = p.Sem.count + 1 ∧
      (Add p now obj).pool.Sem = p.Sem.Signal ∧
      (Add p now obj).trace.count Event.semSignal = 1 ∧
      (Add p now obj).pool.LinkedList =
        Value.ptr { Item := obj, ExpiryTime := expiryOf p.ExpiryPeriod now } :: p.LinkedList ∧
      (Add p now obj).pool.LinkedList.length = p.LinkedList.length + 1 ∧
      (Add p now obj).pool.ExpiryPeriod = p.ExpiryPeriod := by
  refine ⟨rfl, rfl, ?_, rfl, ?_, rfl⟩
  · simp [Add]
  · simp [Add]

/-- C15. `Retrieve` does not interact with the semaphore: whether it finds an item or
not, it leaves the semaphore's count and `ExpiryPeriod` unchanged and performs neither
`Signal` nor `Wait`; it changes only the list. -/
theorem C15_retrieve_frame {α : Type} (p : ExpiringObjectPool α) :
    (Retrieve p).pool.Sem = p.Sem ∧
      (Retrieve p).pool.Sem.count = p.Sem.count ∧
      (Retrieve p).pool.ExpiryPeriod = p.ExpiryPeriod ∧
      Event.semSignal ∉ (Retrieve p).trace ∧
      Event.semWait ∉ (Retrieve p).trace ∧
      (Retrieve p).pool = { p with LinkedList := p.LinkedList.tail } := by
  unfold Retrieve
  split
  · rename_i v rest h
    simp [h]
  · rename_i h
    refine ⟨rfl, rfl, rfl, by simp, by simp, ?_⟩
    cases p
    simp only at h
    subst h
    rfl

/-- C16 as stated fails: in the operations of `Add` on a fresh pool, the `Signal` call
does not come after the release of the mutex. -/
theorem C16_signal_after_unlock_fails :
    ¬ occursBefore Event.mutexUnlock Event.semSignal
        (Add (NewTimedExiryPool 100 : ExpiringObjectPool Nat) 0 (some 1)).trace := by
  unfold occursBefore
  decide

/-- C16, amended. Order of effects in `Add`: for every call, `Add` acquires the mutex,
reads the clock, inserts the entry at the front, signals the semaphore, and only then
releases the mutex, the unlock being deferred to the return; the `Signal` call happens
while the mutex is held. -/
theorem C16_add_order {α : Type} (p : ExpiringObjectPool α) (now : Int) (obj : Option α) :
    (Add p now obj).trace =
        [Event.mutexLock, Event.timeNow, Event.pushFront, Event.semSignal,
          Event.mutexUnlock] ∧
      occursBefore Event.mutexLock Event.pushFront (Add p now obj).trace ∧
      occursBefore Event.pushFront Event.semSignal (Add p now obj).trace ∧
      occursBefore Event.semSignal Event.mutexUnlock (Add p now obj).trace ∧
      ¬ occursBefore Event.mutexUnlock Event.semSignal (Add p now obj).trace := by
  have h : (Add p now obj).trace =
      [Event.mutexLock, Event.timeNow, Event.pushFront, Event.semSignal,
        Event.mutexUnlock] := rfl
  rw [h]
  unfold occursBefore
  decide

/-! ## Signals and entries -/

/-- C17. Over-signaling is harmless: when the list is empty and a signal is pending, the
reclaimer's iteration consists of `Sem.Wait()` and the look at `Back()` only: it changes
nothing in the list, takes no lock and does not sleep, and is back at `Sem.Wait()`
having consumed exactly one signal; likewise when the list is found empty at the peek. -/
theorem C17_over_signaling_harmless {α : Type} :
    (∀ s : System α, s.reclaimer = Reclaimer.atWait → s.pool.LinkedList = [] →
        0 < s.pool.Sem.count →
        ∃ s1 s2, step Action.reclaimer s = some s1 ∧ step Action.reclaimer s1 = some s2 ∧
          s2.reclaimer = Reclaimer.atWait ∧ s2.pool.LinkedList = [] ∧
          s2.pool.Sem.count + 1 = s.pool.Sem.count ∧
          s2.pool.ExpiryPeriod = s.pool.ExpiryPeriod ∧ s2.now = s.now ∧
          stepTrace Action.reclaimer s ++ stepTrace Action.reclaimer s1 =
            [Event.semWait, Event.back]) ∧
      (∀ s : System α, s.reclaimer = Reclaimer.atPeek → s.pool.LinkedList = [] →
        step Action.reclaimer s = some { s with reclaimer := Reclaimer.atWait } ∧
          stepTrace Action.reclaimer s = [Event.back]) := by
  constructor
  · intro s hr hl hc
    obtain ⟨⟨ll, period, ⟨sem⟩⟩, now, rc, added, returned⟩ := s
    simp only at hr hl hc
    subst hr hl
    refine ⟨{ pool := { LinkedList := [], ExpiryPeriod := period, Sem := { count := sem - 1 } },
              now := now, reclaimer := Reclaimer.atPeek, added := added, returned := returned },
            { pool := { LinkedList := [], ExpiryPeriod := period, Sem := { count := sem - 1 } },
              now := now, reclaimer := Reclaimer.atWait, added := added, returned := returned },
            ?_, ?_, rfl, rfl, ?_, rfl, rfl, ?_⟩
    · simp [step, semWait_eq, hc]
    · simp [step, peekBack]
    · simp only; omega
    · simp [stepTrace, peekBack]
  · intro s hr hl
    obtain ⟨⟨ll, period, ⟨sem⟩⟩, now, rc, added, returned⟩ := s
    simp only at hr hl
    subst hr hl
    simp [step, stepTrace, peekBack]

/-- C17 on a fresh pool with one pending signal and nothing in the list. -/
theorem C17_over_signaling_harmless_witness :
    ∃ s1 s2 : System Nat,
      step Action.reclaimer
          { pool := { LinkedList := [], ExpiryPeriod := 100, Sem := { count := 1 } },
            now := 7, reclaimer := Reclaimer.atWait, added := [], returned := [] } = some s1 ∧
        step Action.reclaimer s1 = some s2 ∧
        s2.reclaimer = Reclaimer.atWait ∧ s2.pool.LinkedList = [] ∧
        s2.pool.Sem.count + 1 = 1 ∧ s2.pool.ExpiryPeriod = 100 ∧ s2.now = 7 ∧
        stepTrace Action.reclaimer
            ({ pool := { LinkedList := [], ExpiryPeriod := 100, Sem := { count := 1 } },
               now := 7, reclaimer := Reclaimer.atWait, added := [], returned := [] } :
              System Nat) ++ stepTrace Action.reclaimer s1 = [Event.semWait, Event.back] :=
  C17_over_signaling_harmless.1
    { pool := { LinkedList := [], ExpiryPeriod := 100, Sem := { count := 1 } },
      now := 7, reclaimer := Reclaimer.atWait, added := [], returned := [] }
    rfl rfl (by decide)

/-- C18. No stranded entries: in every reachable state, the pending semaphore count,
plus one if the reclaimer is in the middle of an iteration, is at least the number of
entries in the list; hence whenever the reclaimer is at `Sem.Wait()` with count 0, the
list is empty. -/
theorem C18_no_stranded_entries {α : Type} (s : System α) (hs : Reachable s) :
    s.pool.LinkedList.length ≤ s.pool.Sem.count + inIteration s.reclaimer ∧
      (s.reclaimer = Reclaimer.atWait → s.pool.Sem.count = 0 → s.pool.LinkedList = []) := by
  obtain ⟨es, hl, hg⟩ := reachable_inv hs
  have hlen : s.pool.LinkedList.length = es.length := by rw [hl, List.length_map]
  have key : s.pool.LinkedList.length ≤ s.pool.Sem.count + inIteration s.reclaimer := by
    rw [hlen]
    cases hr : s.reclaimer with
    | atWait => rw [hr] at hg; simp only [inIteration]; exact hg.2.2
    | atPeek => rw [hr] at hg; simp only [inIteration]; exact hg.2.2
    | asleep u =>
      rw [hr] at hg
      simp only [inIteration]
      rcases hg.2.2.2.2 with h | ⟨h, -⟩ <;> omega
    | atLock u =>
      rw [hr] at hg
      simp only [inIteration]
      rcases hg.2.2.1.2.2 with h | ⟨h, -⟩ <;> omega
  refine ⟨key, fun hr hc => ?_⟩
  rw [hr, hc] at key
  exact List.eq_nil_of_length_eq_zero (by simpa [inIteration] using key)

/-- C18 in the state reached when the reclaimer sleeps on the first of three entries. -/
theorem C18_no_stranded_entries_witness :
    ∃ s : System Nat,
      run [Action.add (some 1), Action.reclaimer, Action.reclaimer, Action.add (some 2),
          Action.add (some 3)] (start 100 0) = some s ∧
        s.pool.LinkedList.length = 3 ∧ s.pool.Sem.count = 2 ∧
        s.pool.LinkedList.length ≤ s.pool.Sem.count + inIteration s.reclaimer ∧
        (s.reclaimer = Reclaimer.atWait → s.pool.Sem.count = 0 → s.pool.LinkedList = []) :=
  ⟨_, rfl, rfl, rfl, C18_no_stranded_entries _
    (Reachable.run [Action.add (some 1), Action.reclaimer, Action.reclaimer,
      Action.add (some 2), Action.add (some 3)] (Reachable.init 100 0) rfl)⟩

/-! ## The peeked entry -/

/-- A sequence of steps followed by another. -/
theorem run_append {α : Type} (as bs : List (Action α)) (s : System α) :
    run (as ++ bs) s = (run as s).bind (run bs) := by
  induction as generalizing s with
  | nil => simp [run]
  | cons a as ih =>
    simp only [List.cons_append, run]
    cases step a s with
    | none => simp
    | some s1 => simp [ih]

/-- A step other than one of the reclaimer leaves the reclaimer where it is, and an
element leaves the list only by being handed out. -/
theorem step_caller_keeps {α : Type} [DecidableEq α] {a : Action α} {s s' : System α}
    (ha : a ≠ Action.reclaimer) (h : step a s = some s') (e : ExpiryElement α) :
    s'.reclaimer = s.reclaimer ∧
      (elements s.pool).count e + s.returned.count e ≤
        (elements s'.pool).count e + s'.returned.count e := by
  cases a with
  | reclaimer => exact absurd rfl ha
  | tick t =>
    simp only [step] at h
    split at h
    · cases h; exact ⟨rfl, le_refl _⟩
    · cases h
  | add obj =>
    simp only [step] at h
    cases h
    refine ⟨rfl, ?_⟩
    simp only [Add, elements, List.filterMap_cons, Value.assert, List.count_cons]
    omega
  | retrieve =>
    simp only [step] at h
    split at h
    · cases h
    · rename_i r hr
      cases h
      refine ⟨rfl, ?_⟩
      obtain ⟨l, hl⟩ : ∃ l, s.pool.LinkedList = l := ⟨_, rfl⟩
      cases l with
      | nil =>
        simp only [Retrieve, hl, frontElement, List.head?_nil, Option.none_bind,
          Option.toList_none, List.nil_append]
        exact le_refl _
      | cons v rest =>
        obtain ⟨e0, he0⟩ : ∃ e0, Value.assert v = some e0 := by
          cases hv : Value.assert v with
          | none => simp [Retrieve, hl, hv] at hr
          | some e0 => exact ⟨e0, rfl⟩
        simp only [Retrieve, hl, frontElement, List.head?_cons, Option.some_bind, he0,
          Option.toList_some, List.singleton_append, elements, List.count_cons,
          List.filterMap_cons]
        omega

/-- A sequence of steps none of which is the reclaimer's leaves the reclaimer where it
is, and an element leaves the list only by being handed out. -/
theorem run_caller_keeps {α : Type} [DecidableEq α] (as : List (Action α)) {s s' : System α}
    (ha : ∀ a ∈ as, a ≠ Action.reclaimer) (h : run as s = some s') (e : ExpiryElement α) :
    s'.reclaimer = s.reclaimer ∧
      (elements s.pool).count e + s.returned.count e ≤
        (elements s'.pool).count e + s'.returned.count e := by
  induction as generalizing s with
  | nil => simp only [run] at h; cases h; exact ⟨rfl, le_refl _⟩
  | cons a as ih =>
    simp only [run] at h
    cases h1 : step a s with
    | none => simp [h1] at h
    | some s1 =>
      rw [h1] at h
      obtain ⟨k1, k2⟩ := step_caller_keeps (ha a (List.mem_cons_self _ _)) h1 e
      obtain ⟨k3, k4⟩ := ih (fun b hb => ha b (List.mem_cons_of_mem _ hb)) h
      exact ⟨k3.trans k1, le_trans k2 k4⟩

/-- At the locked re-check in a reachable state, the peeked deadline `u` has passed; a
back element due at `u` is removed; and if the list is left as it is, it is empty or its
back element is due strictly after `u`, and no element due at `u` or earlier is in it. -/
theorem recheck_peeked {α : Type} {s : System α} (hs : Reachable s) {u : Int}
    (hr : s.reclaimer = Reclaimer.atLock u) :
    u ≤ s.now ∧
      (∀ l e, s.pool.LinkedList = l ++ [Value.ptr e] → e.ExpiryTime = u →
        (reclaim s.pool s.now).pool = { s.pool with LinkedList := l }) ∧
      ((reclaim s.pool s.now).pool.LinkedList = s.pool.LinkedList →
        (s.pool.LinkedList = [] ∨
          ∃ l e, s.pool.LinkedList = l ++ [Value.ptr e] ∧ u < e.ExpiryTime) ∧
        ∀ e ∈ elements s.pool, u < e.ExpiryTime) := by
  obtain ⟨es, hl, hg⟩ := reachable_inv hs
  rw [hr] at hg
  obtain ⟨-, hsorted, -, hu⟩ := hg
  have hes := elements_map _ es hl
  refine ⟨hu, fun l e h he => (reclaim_concat s.pool s.now l e h).2.1 (by omega), ?_⟩
  intro hsame
  rcases List.eq_nil_or_concat es with h | ⟨l, b, h⟩
  · subst h
    rw [hes]
    exact ⟨Or.inl hl, by simp⟩
  · rw [List.concat_eq_append] at h
    subst h
    have hl' : s.pool.LinkedList = l.map Value.ptr ++ [Value.ptr b] := by
      rw [hl]; simp
    have hb : s.now < b.ExpiryTime := by
      by_contra hcon
      have := (reclaim_concat s.pool s.now _ b hl').2.1 (by omega)
      rw [this, hl'] at hsame
      simp at hsame
    have hlast : (l ++ [b]).getLast? = some b := List.getLast?_concat l
    have hmin := back_earliest hsorted hlast
    rw [hes]
    refine ⟨Or.inr ⟨_, b, hl', by omega⟩, fun e he => ?_⟩
    have := hmin e he
    omega

/-- C19. Peeked entry is reclaimed if still present. At the locked re-check in a
reachable state the peeked deadline has passed, so a back entry with that deadline is
removed, and the re-check leaves the list as it is only when the list is empty or its
back entry is due strictly later. For one iteration with any calls and clock steps in
between: when the reclaimer peeks the back entry `e`, sleeps and re-checks, it removes
`e` if `e` is still the back entry, and if it leaves the list as it is, then `Retrieve`
has handed out `e` since the peek and the list is empty or a later-due entry is at the
back. -/
theorem C19_peeked_entry_reclaimed {α : Type} [DecidableEq α] :
    (∀ (s : System α) (u : Int), Reachable s → s.reclaimer = Reclaimer.atLock u →
        u ≤ s.now ∧
        (∀ l e, s.pool.LinkedList = l ++ [Value.ptr e] → e.ExpiryTime = u →
          (reclaim s.pool s.now).pool = { s.pool with LinkedList := l }) ∧
        ((reclaim s.pool s.now).pool.LinkedList = s.pool.LinkedList →
          s.pool.LinkedList = [] ∨
            ∃ l e, s.pool.LinkedList = l ++ [Value.ptr e] ∧ u < e.ExpiryTime)) ∧
      (∀ (s0 s2 : System α) (l : List (Value α)) (e : ExpiryElement α)
          (as1 as2 : List (Action α)),
        Reachable s0 → s0.reclaimer = Reclaimer.atPeek →
        s0.pool.LinkedList = l ++ [Value.ptr e] →
        (∀ a ∈ as1, a ≠ Action.reclaimer) → (∀ a ∈ as2, a ≠ Action.reclaimer) →
        run (Action.reclaimer :: as1 ++ Action.reclaimer :: as2) s0 = some s2 →
        s2.reclaimer = Reclaimer.atLock e.ExpiryTime ∧ e.ExpiryTime ≤ s2.now ∧
        (∀ l2, s2.pool.LinkedList = l2 ++ [Value.ptr e] →
          (reclaim s2.pool s2.now).pool = { s2.pool with LinkedList := l2 }) ∧
        ((reclaim s2.pool s2.now).pool.LinkedList = s2.pool.LinkedList →
          s0.returned.count e < s2.returned.count e ∧
          (s2.pool.LinkedList = [] ∨
            ∃ l2 e2, s2.pool.LinkedList = l2 ++ [Value.ptr e2] ∧
              e.ExpiryTime < e2.ExpiryTime))) := by
  constructor
  · intro s u hs hr
    obtain ⟨h1, h2, h3⟩ := recheck_peeked hs hr
    exact ⟨h1, h2, fun hsame => (h3 hsame).1⟩
  · intro s0 s2 l e as1 as2 hs0 hr0 hl0 ha1 ha2 hrun
    have hreach : Reachable s2 := Reachable.run _ hs0 hrun
    -- the peek
    have hpeek : step Action.reclaimer s0 =
        some { s0 with reclaimer := Reclaimer.asleep e.ExpiryTime } := by
      obtain ⟨⟨ll, period, ⟨sem⟩⟩, now, rc, added, returned⟩ := s0
      simp only at hr0 hl0
      subst hr0 hl0
      simp [step, peekBack, List.getLast?_concat, Value.assert]
    rw [show Action.reclaimer :: as1 ++ Action.reclaimer :: as2 =
        Action.reclaimer :: (as1 ++ Action.reclaimer :: as2) from rfl] at hrun
    simp only [run, hpeek, Option.some_bind] at hrun
    rw [run_append] at hrun
    -- the calls made while the reclaimer sleeps
    cases h1 : run as1 { s0 with reclaimer := Reclaimer.asleep e.ExpiryTime } with
    | none => simp [h1] at hrun
    | some s1 =>
      rw [h1] at hrun
      simp only [Option.some_bind, run] at hrun
      obtain ⟨k1, k2⟩ := run_caller_keeps as1 ha1 h1 e
      simp only at k1 k2
      -- the sleep returns
      have hwake : ∃ s1', step Action.reclaimer s1 = some s1' ∧
          s1'.reclaimer = Reclaimer.atLock e.ExpiryTime ∧ s1'.pool = s1.pool ∧
          s1'.returned = s1.returned := by
        cases h2 : step Action.reclaimer s1 with
        | none => simp [h2] at hrun
        | some s1' =>
          refine ⟨s1', rfl, ?_⟩
          obtain ⟨pool1, now1, rc1, added1, returned1⟩ := s1
          simp only at k1
          subst k1
          simp only [step] at h2
          split at h2
          · cases h2; exact ⟨rfl, rfl, rfl⟩
          · cases h2
      obtain ⟨s1', hw, hw1, hw2, hw3⟩ := hwake
      rw [hw] at hrun
      simp only [Option.some_bind] at hrun
      obtain ⟨k3, k4⟩ := run_caller_keeps as2 ha2 hrun e
      have hr2 : s2.reclaimer = Reclaimer.atLock e.ExpiryTime := k3.trans hw1
      obtain ⟨g1, g2, g3⟩ := recheck_peeked hreach hr2
      refine ⟨hr2, g1, fun l2 hl2 => g2 l2 e hl2 rfl, fun hsame => ?_⟩
      obtain ⟨g4, g5⟩ := g3 hsame
      refine ⟨?_, g4⟩
      have hnot : (elements s2.pool).count e = 0 := by
        rw [List.count_eq_zero]
        intro hmem
        have := g5 e hmem
        omega
      have h0 : 1 ≤ (elements s0.pool).count e := by
        rw [elements_append_ptr s0.pool l e hl0, List.count_append]
        simp
      rw [hw2, hw3] at k4
      omega

/-- C19 when the peeked entry is retrieved and another one added while the reclaimer
sleeps: the re-check at the peeked deadline leaves the new entry, and the peeked entry
is among those handed out. -/
theorem C19_peeked_entry_reclaimed_witness :
    ∃ s0 s2 : System Nat,
      run [Action.add (some 1), Action.reclaimer] (start 100 0) = some s0 ∧
        run (Action.reclaimer ::
            [Action.retrieve, Action.tick 50000000, Action.add (some 2),
              Action.tick 100000000] ++ Action.reclaimer :: []) s0 = some s2 ∧
        s2.reclaimer = Reclaimer.atLock 100000000 ∧
        (reclaim s2.pool s2.now).pool.LinkedList = s2.pool.LinkedList ∧
        s0.returned.count { Item := some 1, ExpiryTime := 100000000 } <
          s2.returned.count { Item := some 1, ExpiryTime := 100000000 } :=
  ⟨
    { pool :=
        { LinkedList := [Value.ptr { Item := some 1, ExpiryTime := 100000000 }],
          ExpiryPeriod := 100, Sem := { count := 0 } },
      now := 0, reclaimer := Reclaimer.atPeek,
      added := [{ Item := some 1, ExpiryTime := 100000000 }], returned := [] },
    { pool :=
        { LinkedList := [Value.ptr { Item := some 2, ExpiryTime := 150000000 }],
          ExpiryPeriod := 100, Sem := { count := 1 } },
      now := 100000000, reclaimer := Reclaimer.atLock 100000000,
      added := [{ Item := some 2, ExpiryTime := 150000000 },
                { Item := some 1, ExpiryTime := 100000000 }],
      returned := [{ Item := some 1, ExpiryTime := 100000000 }] },
    by decide, by decide,
    (C19_peeked_entry_reclaimed.2
        { pool :=
            { LinkedList := [Value.ptr { Item := some 1, ExpiryTime := 100000000 }],
              ExpiryPeriod := 100, Sem := { count := 0 } },
          now := 0, reclaimer := Reclaimer.atPeek,
          added := [{ Item := some 1, ExpiryTime := 100000000 }], returned := [] }
        { pool :=
            { LinkedList := [Value.ptr { Item := some 2, ExpiryTime := 150000000 }],
              ExpiryPeriod := 100, Sem := { count := 1 } },
          now := 100000000, reclaimer := Reclaimer.atLock 100000000,
          added := [{ Item := some 2, ExpiryTime := 150000000 },
                    { Item := some 1, ExpiryTime := 100000000 }],
          returned := [{ Item := some 1, ExpiryTime := 100000000 }] }
        [] { Item := some 1, ExpiryTime := 100000000 }
        [Action.retrieve, Action.tick 50000000, Action.add (some 2), Action.tick 100000000] []
        (Reachable.run [Action.add (some 1), Action.reclaimer] (Reachable.init 100 0)
          (by decide))
        rfl rfl (by decide) (by decide) (by decide)).1,
    by decide,
    (
      (C19_peeked_entry_reclaimed.2
          { pool :=
              { LinkedList := [Value.ptr { Item := some 1, ExpiryTime := 100000000 }],
                ExpiryPeriod := 100, Sem := { count := 0 } },
            now := 0, reclaimer := Reclaimer.atPeek,
            added := [{ Item := some 1, ExpiryTime := 100000000 }], returned := [] }
          { pool :=
              { LinkedList := [Value.ptr { Item := some 2, ExpiryTime := 150000000 }],
                ExpiryPeriod := 100, Sem := { count := 1 } },
            now := 100000000, reclaimer := Reclaimer.atLock 100000000,
            added := [{ Item := some 2, ExpiryTime := 150000000 },
                      { Item := some 1, ExpiryTime := 100000000 }],
            returned := [{ Item := some 1, ExpiryTime := 100000000 }] }
          [] { Item := some 1, ExpiryTime := 100000000 }
          [Action.retrieve, Action.tick 50000000, Action.add (some 2), Action.tick 100000000] []
          (Reachable.run [Action.add (some 1), Action.reclaimer] (Reachable.init 100 0)
            (by decide))
          rfl rfl (by decide) (by decide) (by decide)).2.2.2 (by decide)).1⟩

end objpool
